import Mathlib

/-!
# Verification development for `test-program` (main.go, main_test.go)

A shallow embedding of the Go demonstration program and of the helper of its
test file, followed by the theorems that settle the claims of the
specification against it.

Modelling conventions

* Go `int` is the 64-bit two-complement integer of the usual targets
  (amd64, arm64).  A value is an `Int`; every arithmetic result is reduced
  into `[-2^63, 2^63)` by `wrapInt`, which is what Go does on overflow.
* Go `float64` is an IEEE-754 binary64 bit pattern (`F64`); comparison and
  division follow IEEE-754 (round to nearest, ties to even), which is what the
  Go specification prescribes for `==` and `/` on `float64`.
* Go `error` is `Option String`: `none` is `nil`, `some msg` is an error whose
  `Error()` text is `msg`.
* Standard output is the list of the lines written so far (`Stdout`): each
  `fmt.Println` and each `fmt.Printf` whose format ends in a newline appends
  one line (stored without the newline).
* `rand.Intn(100)` reads an external source of numbers: `draws k` is the value
  returned by the `k`-th call (counting from 0).
* `time.Sleep` has no effect on values or on output and is left out.
-/

namespace TestProgram

/-! ## Go `int` -/

/-- Smallest value of a Go `int` (64 bits), `-2^63`. -/
def minInt : Int := -9223372036854775808

/-- Largest value of a Go `int` (64 bits), `2^63 - 1`. -/
def maxInt : Int := 9223372036854775807

/-- The values a Go `int` can hold. -/
def isInt (x : Int) : Prop := minInt ≤ x ∧ x ≤ maxInt

instance (x : Int) : Decidable (isInt x) := by
  unfold isInt
  exact inferInstance

/-- Two-complement wrap-around of an arithmetic result into the range of
`int`: `(x + 2^63) mod 2^64 - 2^63`, with the powers written out. -/
def wrapInt (x : Int) : Int :=
  (x + 9223372036854775808) % 18446744073709551616 - 9223372036854775808

/-- The verb `%d` of `fmt` applied to an `int`: decimal digits, with a leading
minus sign for a negative number. -/
def fmtInt (n : Int) : String := toString n

/-! ## Standard output -/

/-- The lines written to standard output so far. -/
abbrev Stdout := List String

/-- Writing one line (`fmt.Println`, or `fmt.Printf` with a format ending in a
newline). -/
def println (out : Stdout) (line : String) : Stdout := out ++ [line]

/-! ## The record type -/

/-- The struct `Person` of main.go. -/
structure Person where
  Name : String
  Age : Int
  deriving DecidableEq

/-- The verb `%+v` of `fmt` applied to a `Person` value. -/
def fmtPerson (p : Person) : String :=
  "\x7bName:" ++ p.Name ++ " Age:" ++ fmtInt p.Age ++ "\x7d"

/-! ## Go `float64` -/

/-- A Go `float64`: the 64 bits of an IEEE-754 binary64 number (bit 63 the
sign, bits 62..52 the biased exponent, bits 51..0 the fraction). -/
structure F64 where
  bits : Nat
  isBits : bits < 2 ^ 64
  deriving DecidableEq

namespace F64

/-- The sign bit: `true` for a negative number (and for -0). -/
def sign (x : F64) : Bool := decide (2 ^ 63 ≤ x.bits)

/-- The biased exponent field. -/
def expField (x : F64) : Nat := x.bits / 2 ^ 52 % 2 ^ 11

/-- The fraction field. -/
def frac (x : F64) : Nat := x.bits % 2 ^ 52

/-- Not-a-number: exponent field all ones, fraction not zero. -/
def isNaN (x : F64) : Bool := x.expField == 2047 && x.frac != 0

/-- An infinity: exponent field all ones, fraction zero. -/
def isInf (x : F64) : Bool := x.expField == 2047 && x.frac == 0

/-- Plus or minus zero. -/
def isZero (x : F64) : Bool := x.expField == 0 && x.frac == 0

/-- A finite number (zero, subnormal or normal). -/
def isFinite (x : F64) : Bool := x.expField != 2047

/-- The magnitude of a finite number counted in units of `2^(-1074)`, the
smallest positive `float64`: a subnormal is `frac` units, a normal number is
`(2^52 + frac) * 2^(expField - 1)` units. -/
def mag (x : F64) : Nat :=
  if x.expField = 0 then x.frac else (2 ^ 52 + x.frac) * 2 ^ (x.expField - 1)

/-- The rational number a `float64` stands for; `none` for NaN and the
infinities. -/
def toRat (x : F64) : Option ℚ :=
  if x.isFinite then
    some ((if x.sign then -1 else 1) * (x.mag : ℚ) / 2 ^ 1074)
  else none

/-- The bits of a sign, an exponent field and a fraction field, as a value. -/
def ofFields (s : Bool) (e f : Nat) : F64 :=
  ⟨((if s then 2 ^ 63 else 0) + (e % 2 ^ 11) * 2 ^ 52 + f % 2 ^ 52) % 2 ^ 64,
    Nat.mod_lt _ (by decide)⟩

/-- The `float64` with the given 64 bits. -/
def ofBits (n : Nat) : F64 := ⟨n % 2 ^ 64, Nat.mod_lt _ (by decide)⟩

/-- The constant `0` as a `float64` (+0). -/
def zero : F64 := ofFields false 0 0

/-- The constant `10` as a `float64`. -/
def ten : F64 := ofFields false 1026 (2 ^ 50)

/-- The quiet NaN produced by an invalid operation (`0 / 0`, `Inf / Inf`) or by
an operation on a NaN.  Go does not fix the sign and payload bits of such a
result; the program never looks at them. -/
def nan : F64 := ofFields false 2047 (2 ^ 51)

/-- The infinity of sign `s`. -/
def inf (s : Bool) : F64 := ofFields s 2047 0

/-- The number of low bits to drop from `n` so that at most 53 significant
bits are left: the least `k` with `n / 2^k < 2^53`, found by halving (at most
`fuel` times). -/
def dropBits : Nat → Nat → Nat
  | 0, _ => 0
  | fuel + 1, n => if n < 2 ^ 53 then 0 else dropBits fuel (n / 2) + 1

/-- The finite number of sign `s` and magnitude `n` units of `2^(-1074)`, for
an `n` with at most 53 significant bits below `2^2098`: a subnormal below
`2^52`, otherwise the normal number whose significand is `n` without its
trailing zero bits. -/
def pack (s : Bool) (n : Nat) : F64 :=
  if n < 2 ^ 52 then ofFields s 0 n
  else ofFields s (dropBits 3200 n + 1) (n / 2 ^ dropBits 3200 n - 2 ^ 52)

/-- The `float64` nearest to the positive rational `num / den` units of
`2^(-1074)` (`den` positive, the quotient below `2^3200`), ties going to the
even significand, with sign `s`; an infinity once the rounded magnitude passes
the largest finite number.  The quotient is cut to 53 significant bits (`k`
bits dropped), and the remainder decides the direction of the rounding. -/
def roundPack (s : Bool) (num den : Nat) : F64 :=
  let q := num / den
  let k := dropBits 3200 q
  let unit := den * 2 ^ k
  let m := num / unit
  let r := num % unit
  let m1 := if 2 * r < unit then m
            else if unit < 2 * r then m + 1
            else if m % 2 = 0 then m else m + 1
  let n := m1 * 2 ^ k
  if 2 ^ 2098 ≤ n then inf s else pack s n

/-- The operator `==` on `float64`: false when an operand is NaN, true for two
zeros of either sign, otherwise equality of the bits. -/
def eq (x y : F64) : Bool :=
  !x.isNaN && !y.isNaN && ((x.isZero && y.isZero) || x.bits == y.bits)

/-- The operator `/` on `float64` (IEEE-754 division, round to nearest even). -/
def div (x y : F64) : F64 :=
  let s := xor x.sign y.sign
  if x.isNaN || y.isNaN then nan
  else if x.isInf then (if y.isInf then nan else inf s)
  else if y.isInf then pack s 0
  else if y.isZero then (if x.isZero then nan else inf s)
  else roundPack s (x.mag * 2 ^ 1074) y.mag

end F64

/-! ## Helper functions of main.go -/

/-- Function `hello` of main.go. -/
def hello : String := "Hello, World!"

/-- Function `processNumber` of main.go. -/
def processNumber (num : Int) (out : Stdout) : Stdout :=
  let doubled := wrapInt (num * 2)
  let squared := wrapInt (num * num)
  println out
    ("数字 " ++ fmtInt num ++ ": 2倍=" ++ fmtInt doubled ++ ", 平方=" ++ fmtInt squared)

/-- Function `calculateSum` of main.go: the `range` loop adds the elements to
`sum` from left to right. -/
def calculateSum (numbers : List Int) : Int :=
  numbers.foldl (fun sum num => wrapInt (sum + num)) 0

/-- Function `validateAge` of main.go. -/
def validateAge (age : Int) (out : Stdout) : Stdout :=
  if age < 0 then
    println out "年龄不能为负数"
  else if age > 150 then
    println out "年龄过大"
  else
    println out ("年龄有效: " ++ fmtInt age)

/-- Function `updatePerson` of main.go.  The pointer argument is modelled by
passing the record in and returning the record that is stored when the call
returns. -/
def updatePerson (p : Person) (out : Stdout) : Person × Stdout :=
  let p1 : Person := { p with Age := wrapInt (p.Age + 1) }
  let p2 : Person := { p1 with Name := p1.Name ++ " (Updated)" }
  (p2, validateAge p2.Age out)

/-- Function `add` of main_test.go. -/
def add (a b : Int) : Int := wrapInt (a + b)

/-- The verb `%f` of `fmt` applied to a `float64`: six digits after the
decimal point, the exact value rounded to nearest (ties to even). -/
def fmtFloat (x : F64) : String :=
  if x.isNaN then "NaN"
  else if x.isInf then (if x.sign then "-Inf" else "+Inf")
  else
    let num := x.mag * 10 ^ 6
    let den := 2 ^ 1074
    let v := num / den
    let r := num % den
    let v1 := if 2 * r < den then v
              else if den < 2 * r then v + 1
              else if v % 2 = 0 then v else v + 1
    let digits := toString (v1 % 10 ^ 6)
    (if x.sign then "-" else "") ++ toString (v1 / 10 ^ 6) ++ "."
      ++ "".pushn '0' (6 - digits.length) ++ digits

/-- Function `safeDivide` of main.go. -/
def safeDivide (a b : F64) : F64 × Option String :=
  if F64.eq b F64.zero then
    (F64.zero, some "除数不能为零")
  else
    (F64.div a b, none)

/-! ## The entry sequence -/

/-- The variables that the loop of `main` changes: `counter`, standard output,
and the number of calls of `rand.Intn` made so far. -/
structure LoopState where
  counter : Int
  out : Stdout
  calls : Nat

/-- The body of the loop of `main` for one value of `i`. -/
def loopBody (draws : Nat → Int) (i : Int) (st : LoopState) : LoopState :=
  let counter := wrapInt (st.counter + 1)
  let out :=
    if i > 5 then
      println st.out ("大于5的循环: i=" ++ fmtInt i ++ ", counter=" ++ fmtInt counter)
    else st.out
  let out := processNumber i out
  let randomValue := draws st.calls
  let out :=
    if randomValue > 50 then
      println out ("随机值大于50: " ++ fmtInt randomValue)
    else out
  { counter := counter, out := out, calls := st.calls + 1 }

/-- The loop `for i := 0; i < 10; i++` of `main`, from the test of the
condition at the value `i` on.  Each test of the condition uses one unit of
fuel; `none` means the fuel ran out before the loop was left. -/
def mainLoop (draws : Nat → Int) : Nat → Int → LoopState → Option LoopState
  | 0, _, _ => none
  | fuel + 1, i, st =>
    if i < 10 then mainLoop draws fuel (wrapInt (i + 1)) (loopBody draws i st)
    else some st

/-- Function `main` of main.go: the lines it writes, for the numbers `draws`
returned by `rand.Intn(100)`; `none` when `fuel` does not suffice for the
loop.  The map `scores` is filled and never read, and is left out. -/
def main (fuel : Nat) (draws : Nat → Int) : Option Stdout :=
  let out := println [] "Go Debug Pro 测试程序开始"
  let counter : Int := 0
  let message := "Hello Debug"
  let out := println out ("开始调试: " ++ message)
  let person : Person := { Name := "Alice", Age := 25 }
  let out := println out ("Person: " ++ fmtPerson person)
  let numbers : List Int := [1, 2, 3, 4, 5]
  match mainLoop draws fuel 0 { counter := counter, out := out, calls := 0 } with
  | none => none
  | some st =>
    let out := st.out
    let result := calculateSum numbers
    let out := println out ("数组和: " ++ fmtInt result)
    let (person, out) := updatePerson person out
    let out := println out ("更新后的人员信息: " ++ fmtPerson person)
    let (divideResult, err) := safeDivide F64.ten F64.zero
    let out :=
      match err with
      | some e => println out ("除法错误: " ++ e)
      | none => println out ("除法结果: " ++ fmtFloat divideResult)
    some (println out "程序结束")

/-- The ten iterations of the loop of `main`, `i = 0, ..., 9`, one after the
other. -/
def tenIterations (draws : Nat → Int) (st : LoopState) : LoopState :=
  [0, 1, 2, 3, 4, 5, 6, 7, 8, 9].foldl (fun s i => loopBody draws i s) st

/-- A line that reports a random value: it starts with "随机值大于50: ". -/
def isRandomLine (line : String) : Bool := "随机值大于50: ".data.isPrefixOf line.data

/-- A line that reports a quotient: it starts with "除法结果". -/
def isQuotientLine (line : String) : Bool := "除法结果".data.isPrefixOf line.data

/-- A line of the conditional print in the loop: it starts with "大于5的循环". -/
def isGreaterLine (line : String) : Bool := "大于5的循环".data.isPrefixOf line.data

/-- A line written by `validateAge`: it starts with "年龄". -/
def isAgeLine (line : String) : Bool := "年龄".data.isPrefixOf line.data

/-- The line that reports the person after the update: it starts with
"更新后的人员信息". -/
def isUpdateLine (line : String) : Bool := "更新后的人员信息".data.isPrefixOf line.data

/-- The iterations that the loop of `main` performs, in order: for each one the
value of `i` and the state at the end of the body.  It follows `mainLoop` test
by test, with the same use of fuel. -/
def loopTrace (draws : Nat → Int) : Nat → Int → LoopState → List (Int × LoopState)
  | 0, _, _ => []
  | fuel + 1, i, st =>
    if i < 10 then
      (i, loopBody draws i st) :: loopTrace draws fuel (wrapInt (i + 1)) (loopBody draws i st)
    else []

/-! ## Integer arithmetic -/

theorem wrapInt_of_isInt {x : Int} (h : isInt x) : wrapInt x = x := by
  unfold isInt minInt maxInt at h
  unfold wrapInt
  omega

theorem isInt_wrapInt (x : Int) : isInt (wrapInt x) := by
  unfold isInt minInt maxInt wrapInt
  omega

theorem wrapInt_add_wrapInt_left (a b : Int) : wrapInt (wrapInt a + b) = wrapInt (a + b) := by
  unfold wrapInt
  omega

theorem foldl_wrap_sum (xs : List Int) :
    ∀ acc : Int, xs.foldl (fun sum num => wrapInt (sum + num)) (wrapInt acc)
      = wrapInt (acc + xs.sum) := by
  induction xs with
  | nil => intro acc; simp
  | cons x xs ih =>
    intro acc
    simp only [List.foldl_cons, List.sum_cons]
    rw [wrapInt_add_wrapInt_left, ih (acc + x), Int.add_assoc]

theorem calculateSum_eq_wrapInt (xs : List Int) : calculateSum xs = wrapInt xs.sum := by
  have h := foldl_wrap_sum xs 0
  have h0 : wrapInt 0 = 0 := by decide
  rw [h0, Int.zero_add] at h
  exact h

/-- C3 (as stated, refuted): the two-element sequence `[2^63 - 1, 1]` of `int`
values has the sum `2^63`, and `calculateSum` returns `-2^63`. -/
theorem calculateSum_overflow :
    isInt 9223372036854775807 ∧ isInt 1 ∧
    calculateSum [9223372036854775807, 1] = -9223372036854775808 ∧
    calculateSum [9223372036854775807, 1] ≠ List.sum [9223372036854775807, 1] := by
  decide

/-- C3 (amended): for every sequence of integers whose sum is an `int` value,
`calculateSum` returns that sum (also when a partial sum wraps around); the
empty sequence gives 0 and the sequence `[1, 2, 3, 4, 5]` of `main` gives
15. -/
theorem calculateSum_eq_sum (xs : List Int) (hsum : isInt xs.sum) :
    calculateSum xs = xs.sum ∧ calculateSum [] = 0 ∧ calculateSum [1, 2, 3, 4, 5] = 15 := by
  refine ⟨?_, by decide, by decide⟩
  rw [calculateSum_eq_wrapInt, wrapInt_of_isInt hsum]

theorem calculateSum_eq_sum_witness :
    isInt (List.sum [9223372036854775807, 5, -7]) ∧
    calculateSum [9223372036854775807, 5, -7] = List.sum [9223372036854775807, 5, -7] :=
  ⟨by norm_num [isInt, minInt, maxInt],
    (calculateSum_eq_sum [9223372036854775807, 5, -7] (by norm_num [isInt, minInt, maxInt])).1⟩

/-- C10 (as stated, refuted): `add (2^63 - 1) 1` is `-2^63`, not the sum
`2^63`. -/
theorem add_overflow :
    isInt 9223372036854775807 ∧ isInt 1 ∧
    add 9223372036854775807 1 = -9223372036854775808 ∧
    add 9223372036854775807 1 ≠ 9223372036854775807 + 1 := by
  decide

/-- C10 (amended): for all `int` values `a` and `b` whose sum is an `int`
value, `add a b` is the sum `a + b` (so `add 2 3 = 5`); for all `int` values,
overflowing or not, `add` is commutative and has 0 as identity. -/
theorem add_spec (a b : Int) (ha : isInt a) :
    (isInt (a + b) → add a b = a + b) ∧ add 2 3 = 5 ∧
    add a b = add b a ∧ add a 0 = a ∧ add 0 a = a := by
  refine ⟨fun h => wrapInt_of_isInt h, by decide, ?_, ?_, ?_⟩
  · unfold add; rw [Int.add_comm]
  · unfold add; rw [Int.add_zero]; exact wrapInt_of_isInt ha
  · unfold add; rw [Int.zero_add]; exact wrapInt_of_isInt ha

theorem add_spec_witness :
    isInt 2 ∧ isInt (2 + 3) ∧ add 2 3 = 2 + 3 ∧ add 2 3 = add 3 2 ∧ add 2 0 = 2 :=
  ⟨by decide, by decide,
    (add_spec 2 3 (by decide)).1 (by decide),
    (add_spec 2 3 (by decide)).2.2.1,
    (add_spec 2 3 (by decide)).2.2.2.1⟩

/-! ## The record update and the age validation -/

theorem validateAge_append (age : Int) (out : Stdout) :
    validateAge age out = out ++ validateAge age [] := by
  unfold validateAge println
  split_ifs <;> simp

theorem valid_ne_negative (s : String) : "年龄有效: " ++ s ≠ "年龄不能为负数" := by
  intro h
  have h2 := congrArg String.data h
  simp at h2

theorem valid_ne_large (s : String) : "年龄有效: " ++ s ≠ "年龄过大" := by
  intro h
  have h2 := congrArg String.data h
  simp at h2

/-- C6: for every age `validateAge` writes exactly one line: the line
"年龄不能为负数" exactly when `age < 0`, the line "年龄过大" exactly when
`age > 150`, and the line "年龄有效: " followed by the age exactly when
`0 ≤ age ≤ 150`; the ages 0 and 150 are in the valid band, -1 and 151 are
not. -/
theorem validateAge_bands (age : Int) (out : Stdout) :
    (∃ msg, validateAge age out = out ++ [msg] ∧
      (msg = "年龄不能为负数" ↔ age < 0) ∧
      (msg = "年龄过大" ↔ age > 150) ∧
      (msg = "年龄有效: " ++ fmtInt age ↔ 0 ≤ age ∧ age ≤ 150)) ∧
    validateAge 0 out = out ++ ["年龄有效: 0"] ∧
    validateAge 150 out = out ++ ["年龄有效: 150"] ∧
    validateAge (-1) out = out ++ ["年龄不能为负数"] ∧
    validateAge 151 out = out ++ ["年龄过大"] := by
  refine ⟨?_, ?_, ?_, ?_, ?_⟩
  · unfold validateAge println
    by_cases h1 : age < 0
    · refine ⟨"年龄不能为负数", by simp [h1], by simp [h1], ?_, ?_⟩
      · constructor
        · intro h; exact absurd h (by decide)
        · intro h; omega
      · constructor
        · intro h; exact absurd h.symm (valid_ne_negative _)
        · intro h; omega
    · by_cases h2 : age > 150
      · refine ⟨"年龄过大", by simp [h1, h2], ?_, by simp [h2], ?_⟩
        · constructor
          · intro h; exact absurd h (by decide)
          · intro h; omega
        · constructor
          · intro h; exact absurd h.symm (valid_ne_large _)
          · intro h; omega
      · refine ⟨"年龄有效: " ++ fmtInt age, by simp [h1, h2], ?_, ?_, ?_⟩
        · constructor
          · intro h; exact absurd h (valid_ne_negative _)
          · intro h; omega
        · constructor
          · intro h; exact absurd h (valid_ne_large _)
          · intro h; omega
        · constructor
          · intro _; omega
          · intro _; rfl
  · rw [validateAge_append]; rfl
  · rw [validateAge_append]; rfl
  · rw [validateAge_append]; rfl
  · rw [validateAge_append]; rfl

theorem updatePerson_stored (p : Person) (out : Stdout) :
    (updatePerson p out).1 =
      { Name := p.Name ++ " (Updated)", Age := wrapInt (p.Age + 1) } := rfl

/-- C4 (as stated, refuted): for the person of age `2^63 - 1`, the largest
`int`, the age after `updatePerson` is `-2^63`, not the old age plus 1. -/
theorem updatePerson_overflow :
    isInt 9223372036854775807 ∧
    (updatePerson { Name := "Alice", Age := 9223372036854775807 } []).1.Age
      = -9223372036854775808 ∧
    (updatePerson { Name := "Alice", Age := 9223372036854775807 } []).1.Age
      ≠ 9223372036854775807 + 1 := by
  decide

/-- C4 (amended): for every Person `p` whose age is an `int` below the largest
one, after `updatePerson` the age is exactly the old age plus 1 and the name
is exactly the old name followed by " (Updated)"; the old name is a prefix of
the new one, and the record has no other field. -/
theorem updatePerson_spec (p : Person) (out : Stdout)
    (hage : isInt p.Age) (hmax : p.Age < maxInt) :
    (updatePerson p out).1.Age = p.Age + 1 ∧
    (updatePerson p out).1.Name = p.Name ++ " (Updated)" ∧
    p.Name.data <+: (updatePerson p out).1.Name.data ∧
    (updatePerson p out).1 = { Name := p.Name ++ " (Updated)", Age := p.Age + 1 } := by
  have hw : wrapInt (p.Age + 1) = p.Age + 1 := by
    apply wrapInt_of_isInt
    unfold isInt minInt maxInt at *
    omega
  rw [updatePerson_stored, hw]
  refine ⟨rfl, rfl, ?_, rfl⟩
  simp

theorem updatePerson_spec_witness :
    (updatePerson { Name := "Alice", Age := 25 } []).1
      = { Name := "Alice (Updated)", Age := 26 } :=
  (updatePerson_spec { Name := "Alice", Age := 25 } [] (by decide) (by decide)).2.2.2

theorem join_replicate_succ (n : Nat) (t : String) :
    String.join (List.replicate (n + 1) t) = t ++ String.join (List.replicate n t) := by
  apply String.ext
  simp [List.replicate_succ]

theorem updatePerson_iterate (n : Nat) (p : Person) (out : Stdout) (hage : isInt p.Age) :
    ((fun s : Person × Stdout => updatePerson s.1 s.2)^[n] (p, out)).1 =
      { Name := p.Name ++ String.join (List.replicate n " (Updated)"),
        Age := wrapInt (p.Age + n) } := by
  induction n generalizing p out with
  | zero => simp [wrapInt_of_isInt hage, String.join]
  | succ n ih =>
    rw [Function.iterate_succ_apply]
    have h := ih (updatePerson p out).1 (updatePerson p out).2
      (by rw [updatePerson_stored]; exact isInt_wrapInt _)
    rw [h, updatePerson_stored, join_replicate_succ, wrapInt_add_wrapInt_left,
      String.append_assoc]
    congr 2
    push_cast
    ring

/-- C5 (as stated, refuted): for the person of age `2^63 - 2`, two calls of
`updatePerson` in a row leave the age `-2^63`, not the original age plus 2. -/
theorem updatePerson_twice_overflow :
    isInt 9223372036854775806 ∧
    (updatePerson
      (updatePerson { Name := "Alice", Age := 9223372036854775806 } []).1
      (updatePerson { Name := "Alice", Age := 9223372036854775806 } []).2).1.Age
      = -9223372036854775808 ∧
    (updatePerson
      (updatePerson { Name := "Alice", Age := 9223372036854775806 } []).1
      (updatePerson { Name := "Alice", Age := 9223372036854775806 } []).2).1.Age
      ≠ 9223372036854775806 + 2 := by
  decide

/-- C5 (amended): for every Person `p` with an `int` age and every `n` such
that the age plus `n` is still an `int`, `n` calls of `updatePerson` in a row
add `n` to the age and append the suffix " (Updated)" `n` times; for `n = 2`
the age is the original plus 2 and the name the original followed by the
suffix twice. -/
theorem updatePerson_iterate_spec (n : Nat) (p : Person) (out : Stdout)
    (hage : isInt p.Age) (hn : p.Age + n ≤ maxInt) :
    ((fun s : Person × Stdout => updatePerson s.1 s.2)^[n] (p, out)).1 =
      { Name := p.Name ++ String.join (List.replicate n " (Updated)"),
        Age := p.Age + n } ∧
    (p.Age + 2 ≤ maxInt →
      (updatePerson (updatePerson p out).1 (updatePerson p out).2).1 =
        { Name := p.Name ++ " (Updated)" ++ " (Updated)", Age := p.Age + 2 }) := by
  constructor
  · rw [updatePerson_iterate n p out hage, wrapInt_of_isInt]
    unfold isInt minInt maxInt at *
    omega
  · intro h2
    have hw : wrapInt (p.Age + 1 + 1) = p.Age + 2 := by
      rw [wrapInt_of_isInt]
      · ring
      · unfold isInt minInt maxInt at *
        omega
    rw [updatePerson_stored, updatePerson_stored, wrapInt_add_wrapInt_left, hw]

theorem updatePerson_iterate_spec_witness :
    ((fun s : Person × Stdout => updatePerson s.1 s.2)^[3] ({ Name := "Alice", Age := 25 }, [])).1
      = { Name := "Alice" ++ String.join (List.replicate 3 " (Updated)"),
          Age := 25 + (3 : Nat) } ∧
    (updatePerson (updatePerson { Name := "Alice", Age := 25 } []).1
        (updatePerson { Name := "Alice", Age := 25 } []).2).1
      = { Name := "Alice" ++ " (Updated)" ++ " (Updated)", Age := 25 + 2 } :=
  ⟨(updatePerson_iterate_spec 3 { Name := "Alice", Age := 25 } [] (by decide) (by decide)).1,
   (updatePerson_iterate_spec 3 { Name := "Alice", Age := 25 } [] (by decide) (by decide)).2
     (by decide)⟩

/-- C7: the record stored by `updatePerson` does not depend on the band that
`validateAge` reports.  For every Person the stored record is the old one with
the age incremented and the suffix appended, and the only effect of the
validation is one line appended to standard output; a resulting negative age
and a resulting age above 150 are stored as they are, neither clamped nor
rejected. -/
theorem updatePerson_validation_advisory (p : Person) (out : Stdout) :
    (updatePerson p out).1 =
      { Name := p.Name ++ " (Updated)", Age := wrapInt (p.Age + 1) } ∧
    (updatePerson p out).2 = validateAge (updatePerson p out).1.Age out ∧
    (∃ msg, validateAge (updatePerson p out).1.Age out = out ++ [msg]) ∧
    updatePerson { Name := "Bob", Age := -5 } out
      = ({ Name := "Bob (Updated)", Age := -4 }, out ++ ["年龄不能为负数"]) ∧
    updatePerson { Name := "Bob", Age := 200 } out
      = ({ Name := "Bob (Updated)", Age := 201 }, out ++ ["年龄过大"]) ∧
    updatePerson { Name := "Bob", Age := 30 } out
      = ({ Name := "Bob (Updated)", Age := 31 }, out ++ ["年龄有效: 31"]) := by
  refine ⟨rfl, rfl, ?_, ?_, ?_, ?_⟩
  · unfold validateAge println
    split_ifs
    · exact ⟨_, rfl⟩
    · exact ⟨_, rfl⟩
    · exact ⟨_, rfl⟩
  · simp only [updatePerson]; rw [validateAge_append]; rfl
  · simp only [updatePerson]; rw [validateAge_append]; rfl
  · simp only [updatePerson]; rw [validateAge_append]; rfl

/-! ## The entry sequence -/

theorem mainLoop_eq (draws : Nat → Int) (fuel : Nat) (hfuel : 11 ≤ fuel) (st : LoopState) :
    mainLoop draws fuel 0 st = some (tenIterations draws st) := by
  obtain ⟨k, rfl⟩ := Nat.exists_eq_add_of_le hfuel
  rw [Nat.add_comm]
  rfl

theorem main_eq (draws : Nat → Int) (fuel : Nat) (hfuel : 11 ≤ fuel) :
    main fuel draws = some
      ((tenIterations draws
          { counter := 0,
            out := ["Go Debug Pro 测试程序开始", "开始调试: Hello Debug",
              "Person: \x7bName:Alice Age:25\x7d"],
            calls := 0 }).out ++
        ["数组和: 15", "年龄有效: 26", "更新后的人员信息: \x7bName:Alice (Updated) Age:26\x7d",
          "除法错误: 除数不能为零", "程序结束"]) := by
  unfold main
  simp only []
  rw [show println (println (println [] "Go Debug Pro 测试程序开始") ("开始调试: " ++ "Hello Debug"))
        ("Person: " ++ fmtPerson { Name := "Alice", Age := 25 })
      = ["Go Debug Pro 测试程序开始", "开始调试: Hello Debug",
              "Person: \x7bName:Alice Age:25\x7d"] from by decide]
  rw [mainLoop_eq draws fuel hfuel]
  have hdiv : safeDivide F64.ten F64.zero = (F64.zero, some "除数不能为零") := by decide
  have hsum : "数组和: " ++ fmtInt (calculateSum [1, 2, 3, 4, 5]) = "数组和: 15" := by decide
  have hupd : ∀ o : Stdout, updatePerson { Name := "Alice", Age := 25 } o
      = ({ Name := "Alice (Updated)", Age := 26 }, o ++ ["年龄有效: 26"]) := by
    intro o
    simp only [updatePerson]
    rw [validateAge_append]
    rfl
  have hfmt : "更新后的人员信息: " ++ fmtPerson { Name := "Alice (Updated)", Age := 26 }
      = "更新后的人员信息: \x7bName:Alice (Updated) Age:26\x7d" := by decide
  have herr : "除法错误: " ++ "除数不能为零" = "除法错误: 除数不能为零" := by decide
  simp only [hdiv, hsum, hupd, hfmt, herr, println, List.append_assoc, List.singleton_append,
    List.cons_append, List.nil_append]

theorem loopBody_out (draws : Nat → Int) (i : Int) (st : LoopState) :
    (loopBody draws i st).out = st.out ++
      ((if i > 5 then
          ["大于5的循环: i=" ++ fmtInt i ++ ", counter=" ++ fmtInt (wrapInt (st.counter + 1))]
        else []) ++
       ["数字 " ++ fmtInt i ++ ": 2倍=" ++ fmtInt (wrapInt (i * 2)) ++ ", 平方="
          ++ fmtInt (wrapInt (i * i))] ++
       (if draws st.calls > 50 then ["随机值大于50: " ++ fmtInt (draws st.calls)] else [])) := by
  by_cases h1 : i > 5 <;> by_cases h2 : draws st.calls > 50 <;>
    simp [loopBody, processNumber, println, h1, h2]

theorem loopBody_counter (draws : Nat → Int) (i : Int) (st : LoopState) :
    (loopBody draws i st).counter = wrapInt (st.counter + 1) := rfl

theorem loopBody_calls (draws : Nat → Int) (i : Int) (st : LoopState) :
    (loopBody draws i st).calls = st.calls + 1 := rfl

theorem isQuotientLine_loop (s : String) :
    isQuotientLine ("大于5的循环: i=" ++ s) = false ∧
    isQuotientLine ("数字 " ++ s) = false ∧
    isQuotientLine ("随机值大于50: " ++ s) = false := by
  simp [isQuotientLine, List.isPrefixOf]

theorem isRandomLine_loop (s : String) :
    isRandomLine ("大于5的循环: i=" ++ s) = false ∧
    isRandomLine ("数字 " ++ s) = false ∧
    isRandomLine ("随机值大于50: " ++ s) = true := by
  simp [isRandomLine, List.isPrefixOf]

theorem foldl_loopBody_invariant (draws : Nat → Int) (P : LoopState → Prop)
    (hstep : ∀ i st, P st → P (loopBody draws i st)) :
    ∀ (is : List Int) (st : LoopState), P st →
      P (is.foldl (fun s i => loopBody draws i s) st) := by
  intro is
  induction is with
  | nil => intro st h; exact h
  | cons i is ih => intro st h; exact ih _ (hstep i st h)

theorem loopBody_no_quotient (draws : Nat → Int) (i : Int) (st : LoopState)
    (h : ∀ l ∈ st.out, isQuotientLine l = false) :
    ∀ l ∈ (loopBody draws i st).out, isQuotientLine l = false := by
  intro l hl
  rw [loopBody_out] at hl
  simp only [List.mem_append, List.mem_singleton, String.append_assoc] at hl
  rcases hl with hl | (hl | hl) | hl
  · exact h l hl
  · split_ifs at hl
    · rw [List.mem_singleton] at hl
      rw [hl]; exact (isQuotientLine_loop _).1
    · simp at hl
  · rw [hl]; exact (isQuotientLine_loop _).2.1
  · split_ifs at hl
    · rw [List.mem_singleton] at hl
      rw [hl]; exact (isQuotientLine_loop _).2.2
    · simp at hl

/-- C8: on every run (whatever the draws, with fuel for the eleven tests of the
loop condition) `main` terminates, the call `safeDivide(10, 0)` fails with the
error "除数不能为零", the output contains the line "除法错误: 除数不能为零" and
no line starting with "除法结果", and the last line is "程序结束". -/
theorem main_reports_division_error (fuel : Nat) (draws : Nat → Int) (hfuel : 11 ≤ fuel) :
    safeDivide F64.ten F64.zero = (F64.zero, some "除数不能为零") ∧
    ∃ out, main fuel draws = some out ∧
      "除法错误: 除数不能为零" ∈ out ∧
      (∀ l ∈ out, isQuotientLine l = false) ∧
      out.getLast? = some "程序结束" := by
  refine ⟨by decide, _, main_eq draws fuel hfuel, ?_, ?_, ?_⟩
  · simp
  · intro l hl
    rw [List.mem_append] at hl
    rcases hl with hl | hl
    · revert l
      unfold tenIterations
      apply foldl_loopBody_invariant draws (fun st => ∀ l ∈ st.out, isQuotientLine l = false)
        (loopBody_no_quotient draws)
      decide
    · revert l
      decide
  · simp

theorem main_reports_division_error_witness :
    ∃ out, main 11 (fun _ => 0) = some out ∧
      "除法错误: 除数不能为零" ∈ out ∧
      (∀ l ∈ out, isQuotientLine l = false) ∧
      out.getLast? = some "程序结束" :=
  (main_reports_division_error 11 (fun _ => 0) (by decide)).2

theorem loopBody_congr (d1 d2 : Nat → Int) (i : Int) (st : LoopState)
    (h : d1 st.calls = d2 st.calls) : loopBody d1 i st = loopBody d2 i st := by
  unfold loopBody
  rw [h]

theorem foldl_loopBody_congr (d1 d2 : Nat → Int) :
    ∀ (is : List Int) (st : LoopState),
      (∀ k, st.calls ≤ k → k < st.calls + is.length → d1 k = d2 k) →
      is.foldl (fun s i => loopBody d1 i s) st = is.foldl (fun s i => loopBody d2 i s) st := by
  intro is
  induction is with
  | nil => intro st _; rfl
  | cons i is ih =>
    intro st h
    simp only [List.foldl_cons]
    rw [loopBody_congr d1 d2 i st (h _ (Nat.le_refl _) (by simp))]
    apply ih
    intro k hk1 hk2
    rw [loopBody_calls] at hk1 hk2
    apply h k (by omega)
    simp only [List.length_cons]
    omega

theorem loopBody_filter (draws : Nat → Int) (i : Int) (st : LoopState) :
    (loopBody draws i st).out.filter (fun l => !isRandomLine l) =
      st.out.filter (fun l => !isRandomLine l) ++
      ((if i > 5 then
          ["大于5的循环: i=" ++ fmtInt i ++ ", counter=" ++ fmtInt (wrapInt (st.counter + 1))]
        else []) ++
       ["数字 " ++ fmtInt i ++ ": 2倍=" ++ fmtInt (wrapInt (i * 2)) ++ ", 平方="
          ++ fmtInt (wrapInt (i * i))]) := by
  rw [loopBody_out]
  by_cases h1 : i > 5 <;> by_cases h2 : draws st.calls > 50 <;>
    simp [h1, h2, List.filter_append, List.filter_cons, String.append_assoc,
      (isRandomLine_loop _).1, (isRandomLine_loop _).2.1, (isRandomLine_loop _).2.2]

theorem foldl_loopBody_filter (d1 d2 : Nat → Int) :
    ∀ (is : List Int) (st1 st2 : LoopState),
      st1.counter = st2.counter →
      st1.out.filter (fun l => !isRandomLine l) = st2.out.filter (fun l => !isRandomLine l) →
      (is.foldl (fun s i => loopBody d1 i s) st1).out.filter (fun l => !isRandomLine l) =
        (is.foldl (fun s i => loopBody d2 i s) st2).out.filter (fun l => !isRandomLine l) := by
  intro is
  induction is with
  | nil => intro st1 st2 _ h; exact h
  | cons i is ih =>
    intro st1 st2 hc ho
    simp only [List.foldl_cons]
    apply ih
    · rw [loopBody_counter, loopBody_counter, hc]
    · rw [loopBody_filter, loopBody_filter, hc, ho]

/-- C9 (as stated, refuted): the run of `main` in which every draw is 0 and the
run in which every draw is 99 (both within the range of `rand.Intn(100)`)
write different output. -/
theorem main_output_depends_on_draws :
    main 11 (fun _ => 0) ≠ main 11 (fun _ => 99) := by
  decide

/-- C9 (amended): the output of `main` is determined by the ten random draws.
Every run terminates; two runs in which the ten draws are the same write the
same output; and any two runs, whatever their draws, write the same lines once
the lines "随机值大于50: <r>" are left out. -/
theorem main_deterministic_up_to_draws (fuel : Nat) (d1 d2 : Nat → Int) (hfuel : 11 ≤ fuel) :
    (∃ out, main fuel d1 = some out) ∧
    ((∀ k, k < 10 → d1 k = d2 k) → main fuel d1 = main fuel d2) ∧
    (main fuel d1).map (List.filter (fun l => !isRandomLine l)) =
      (main fuel d2).map (List.filter (fun l => !isRandomLine l)) := by
  refine ⟨⟨_, main_eq d1 fuel hfuel⟩, ?_, ?_⟩
  · intro h
    rw [main_eq d1 fuel hfuel, main_eq d2 fuel hfuel]
    unfold tenIterations
    rw [foldl_loopBody_congr d1 d2]
    intro k _ hk
    exact h k (by simpa using hk)
  · rw [main_eq d1 fuel hfuel, main_eq d2 fuel hfuel]
    simp only [Option.map_some', List.filter_append]
    unfold tenIterations
    rw [foldl_loopBody_filter d1 d2 _ _ _ rfl rfl]

theorem main_deterministic_up_to_draws_witness :
    (main 11 (fun _ => 0)).map (List.filter (fun l => !isRandomLine l)) =
      (main 11 (fun _ => 99)).map (List.filter (fun l => !isRandomLine l)) :=
  (main_deterministic_up_to_draws 11 (fun _ => 0) (fun _ => 99) (by decide)).2.2

/-! ## The guarded division -/

theorem F64.zero_bits : F64.zero.bits = 0 := by decide

theorem F64.eq_zero (b : F64) : F64.eq b F64.zero = b.isZero := by
  have hz1 : F64.zero.isNaN = false := by decide
  have hz2 : F64.zero.isZero = true := by decide
  unfold F64.eq
  rw [hz1, hz2, F64.zero_bits]
  by_cases h : b.isZero = true
  · have hn : b.isNaN = false := by
      unfold F64.isZero at h
      unfold F64.isNaN
      simp only [Bool.and_eq_true, beq_iff_eq] at h
      simp [h.1]
    simp [h, hn]
  · have hb : (b.bits == 0) = false := by
      by_contra hb
      apply h
      simp only [Bool.not_eq_false, beq_iff_eq] at hb
      unfold F64.isZero F64.expField F64.frac
      rw [hb]
      decide
    simp only [Bool.not_eq_true] at h
    simp [h, hb]

theorem F64.mag_eq_zero_iff (b : F64) : b.mag = 0 ↔ b.isZero = true := by
  unfold F64.mag F64.isZero
  by_cases h : b.expField = 0
  · simp [h]
  · simp only [h, if_false, Bool.and_eq_true, beq_iff_eq, false_and, iff_false]
    positivity

theorem F64.toRat_eq_zero_iff (b : F64) : b.toRat = some 0 ↔ b.isZero = true := by
  rw [← F64.mag_eq_zero_iff]
  unfold F64.toRat
  by_cases hf : b.isFinite = true
  · simp only [hf, if_true, Option.some.injEq]
    constructor
    · intro h
      have h2 : (2 : ℚ) ^ 1074 ≠ 0 := by positivity
      rw [div_eq_zero_iff] at h
      rcases h with h | h
      · rcases mul_eq_zero.mp h with h3 | h3
        · split_ifs at h3 <;> norm_num at h3
        · exact_mod_cast h3
      · exact absurd h h2
    · intro h
      rw [h]
      simp
  · simp only [hf, Bool.false_eq_true, if_false]
    refine ⟨(fun h => nomatch h), fun hm => ?_⟩
    exfalso
    rw [F64.mag_eq_zero_iff] at hm
    apply hf
    unfold F64.isZero at hm
    unfold F64.isFinite
    simp only [Bool.and_eq_true, beq_iff_eq] at hm
    simp [hm.1]

/-- C1: `safeDivide` returns an error exactly when the divisor is zero.  The
divisor compares equal to 0 exactly when the number it stands for is 0 (plus
or minus zero); in that case, for every `a`, the result is the value 0
together with the error "除数不能为零"; for every other divisor (NaN and the
infinities included) the error is `nil`. -/
theorem safeDivide_error_iff_zero (a b : F64) :
    (F64.eq b F64.zero = true ↔ b.toRat = some 0) ∧
    ((safeDivide a b).2 ≠ none ↔ b.toRat = some 0) ∧
    (b.toRat = some 0 → safeDivide a b = (F64.zero, some "除数不能为零")) ∧
    (b.toRat ≠ some 0 → (safeDivide a b).2 = none) ∧
    safeDivide a F64.zero = (F64.zero, some "除数不能为零") ∧
    F64.zero.toRat = some 0 := by
  have hiff : F64.eq b F64.zero = true ↔ b.toRat = some 0 := by
    rw [F64.eq_zero, F64.toRat_eq_zero_iff]
  have hz : F64.zero.toRat = some 0 := by
    rw [F64.toRat_eq_zero_iff]; decide
  refine ⟨hiff, ?_, ?_, ?_, ?_, hz⟩
  · rw [← hiff]
    unfold safeDivide
    by_cases h : F64.eq b F64.zero = true <;> simp [h]
  · intro h
    unfold safeDivide
    rw [if_pos (hiff.mpr h)]
  · intro h
    unfold safeDivide
    rw [if_neg (fun h2 => h (hiff.mp h2))]
  · unfold safeDivide
    rw [if_pos (by decide)]

/-! ## Exactness of the division on representable quotients -/

/-- Known quotients of IEEE-754 binary64 division, given by their bits:
`1/3`, `10/4`, `1/49`, `-7/2`, `2/3`, two subnormal quotients (the first a tie
that goes to the even neighbour 0), an overflow, and the divisions by zero. -/
theorem F64.div_samples :
    (F64.div (F64.ofBits 0x3FF0000000000000) (F64.ofBits 0x4008000000000000)).bits
      = 0x3FD5555555555555 ∧
    (F64.div (F64.ofBits 0x4024000000000000) (F64.ofBits 0x4010000000000000)).bits
      = 0x4004000000000000 ∧
    (F64.div (F64.ofBits 0x3FF0000000000000) (F64.ofBits 0x4048800000000000)).bits
      = 0x3F94E5E0A72F0539 ∧
    (F64.div (F64.ofBits 0xC01C000000000000) (F64.ofBits 0x4000000000000000)).bits
      = 0xC00C000000000000 ∧
    (F64.div (F64.ofBits 0x4000000000000000) (F64.ofBits 0x4008000000000000)).bits
      = 0x3FE5555555555555 ∧
    (F64.div (F64.ofBits 0x1) (F64.ofBits 0x4000000000000000)).bits = 0x0 ∧
    (F64.div (F64.ofBits 0x7E8) (F64.ofBits 0x4008000000000000)).bits = 0x2A3 ∧
    (F64.div (F64.ofBits 0x7FEFFFFFFFFFFFFF) (F64.ofBits 0x3FE0000000000000)).bits
      = 0x7FF0000000000000 ∧
    (F64.div (F64.ofBits 0x3FF0000000000000) F64.zero).bits = 0x7FF0000000000000 ∧
    (F64.div (F64.ofBits 0xBFF0000000000000) F64.zero).bits = 0xFFF0000000000000 ∧
    (F64.div F64.zero F64.zero).isNaN = true := by
  decide!

theorem F64.frac_lt (x : F64) : x.frac < 2 ^ 52 := Nat.mod_lt _ (by decide)

theorem F64.expField_lt (x : F64) : x.expField < 2048 := Nat.mod_lt _ (by decide)

theorem F64.expField_le_of_isFinite (x : F64) (h : x.isFinite = true) : x.expField ≤ 2046 := by
  have h1 := x.expField_lt
  unfold F64.isFinite at h
  simp only [bne_iff_ne, ne_eq] at h
  omega

theorem F64.ofFields_fields (s : Bool) (e f : Nat) (he : e < 2048) (hf : f < 2 ^ 52) :
    (F64.ofFields s e f).expField = e ∧ (F64.ofFields s e f).frac = f ∧
    (F64.ofFields s e f).sign = s := by
  unfold F64.expField F64.frac F64.sign F64.ofFields
  cases s
  · simp only [Bool.false_eq_true, if_false, decide_eq_false_iff_not]
    omega
  · simp only [if_true, decide_eq_true_eq]
    omega

theorem F64.dropBits_small (fuel n : Nat) (h : n < 2 ^ 53) : F64.dropBits fuel n = 0 := by
  cases fuel with
  | zero => rfl
  | succ fuel => simp only [F64.dropBits, if_pos h]

theorem F64.dropBits_shifted (m : Nat) (h1 : 2 ^ 52 ≤ m) (h2 : m < 2 ^ 53) :
    ∀ (k fuel : Nat), k ≤ fuel → F64.dropBits fuel (m * 2 ^ k) = k := by
  intro k
  induction k with
  | zero =>
    intro fuel _
    rw [pow_zero, Nat.mul_one]
    exact F64.dropBits_small fuel m h2
  | succ k ih =>
    intro fuel hk
    obtain ⟨fuel, rfl⟩ : ∃ f, fuel = f + 1 := ⟨fuel - 1, by omega⟩
    have hge : ¬ m * 2 ^ (k + 1) < 2 ^ 53 := by
      have h3 : 1 ≤ 2 ^ k := Nat.one_le_two_pow
      have h4 : m * 2 ≤ m * 2 ^ (k + 1) := by
        rw [pow_succ, ← Nat.mul_assoc, Nat.mul_right_comm]
        exact Nat.le_mul_of_pos_right _ (by omega)
      omega
    have hhalf : m * 2 ^ (k + 1) / 2 = m * 2 ^ k := by
      rw [pow_succ, ← Nat.mul_assoc, Nat.mul_div_cancel _ (by decide)]
    simp only [F64.dropBits, if_neg hge, hhalf]
    rw [ih fuel (by omega)]

theorem F64.mag_normal (x : F64) (h : x.expField ≠ 0) :
    x.mag = (2 ^ 52 + x.frac) * 2 ^ (x.expField - 1) ∧ 2 ^ 52 ≤ x.mag ∧
    x.mag < 2 ^ (52 + (x.expField - 1) + 1) ∧
    F64.dropBits 3200 x.mag = x.expField - 1 := by
  have hf := x.frac_lt
  have he := x.expField_lt
  have hm : x.mag = (2 ^ 52 + x.frac) * 2 ^ (x.expField - 1) := by
    unfold F64.mag
    rw [if_neg h]
  have hpos : 0 < 2 ^ (x.expField - 1) := by positivity
  have h1 : 2 ^ 52 ≤ x.mag := by
    rw [hm]
    calc 2 ^ 52 ≤ 2 ^ 52 + x.frac := by omega
      _ ≤ (2 ^ 52 + x.frac) * 2 ^ (x.expField - 1) := Nat.le_mul_of_pos_right _ hpos
  have h2 : x.mag < 2 ^ (52 + (x.expField - 1) + 1) := by
    rw [hm, show 52 + (x.expField - 1) + 1 = 53 + (x.expField - 1) by omega, pow_add]
    exact Nat.mul_lt_mul_of_pos_right (by omega) hpos
  refine ⟨hm, h1, h2, ?_⟩
  rw [hm]
  exact F64.dropBits_shifted _ (by omega) (by omega) _ _ (by omega)

theorem F64.mag_subnormal (x : F64) (h : x.expField = 0) : x.mag = x.frac := by
  unfold F64.mag
  rw [if_pos h]

theorem F64.pack_mag (s : Bool) (x : F64) :
    F64.pack s x.mag = F64.ofFields s x.expField x.frac := by
  have hf := x.frac_lt
  unfold F64.pack
  by_cases h : x.expField = 0
  · rw [F64.mag_subnormal x h, if_pos hf, h]
  · obtain ⟨hm, h1, _, hdrop⟩ := F64.mag_normal x h
    rw [if_neg (by omega), hdrop]
    have e1 : x.expField - 1 + 1 = x.expField := by omega
    rw [e1, hm, Nat.mul_div_cancel _ (by positivity), Nat.add_sub_cancel_left]

theorem F64.roundPack_exact (s : Bool) (x : F64) (hx : x.isFinite = true)
    (den : Nat) (hden : 0 < den) :
    F64.roundPack s (x.mag * den) den = F64.ofFields s x.expField x.frac := by
  have hf := x.frac_lt
  have he := F64.expField_le_of_isFinite x hx
  rw [← F64.pack_mag]
  unfold F64.roundPack
  simp only [Nat.mul_div_cancel _ hden]
  by_cases h0 : x.expField = 0
  · have hq : x.mag < 2 ^ 53 := by
      rw [F64.mag_subnormal x h0]
      omega
    simp only [F64.dropBits_small _ _ hq, pow_zero, Nat.mul_one, Nat.mul_div_cancel _ hden,
      Nat.mul_mod_left, Nat.mul_zero]
    rw [if_pos hden, if_neg]
    have := Nat.pow_le_pow_right (show 0 < 2 by decide) (show 53 ≤ 2098 by decide)
    omega
  · obtain ⟨hm, _, h2, hdrop⟩ := F64.mag_normal x h0
    have hunit : 0 < den * 2 ^ (x.expField - 1) := by positivity
    have hnum : x.mag * den = (2 ^ 52 + x.frac) * (den * 2 ^ (x.expField - 1)) := by
      rw [hm]; ring
    simp only [hdrop]
    rw [hnum, Nat.mul_div_cancel _ hunit, Nat.mul_mod_left, Nat.mul_zero, if_pos hunit,
      ← hm, if_neg]
    have := Nat.pow_le_pow_right (show 0 < 2 by decide)
      (show 52 + (x.expField - 1) + 1 ≤ 2098 by omega)
    omega

theorem F64.toRat_some (x : F64) (q : ℚ) (h : x.toRat = some q) :
    x.isFinite = true ∧ q = (if x.sign then -1 else 1) * (x.mag : ℚ) / 2 ^ 1074 := by
  unfold F64.toRat at h
  by_cases hf : x.isFinite = true
  · rw [if_pos hf] at h
    exact ⟨hf, (Option.some.inj h).symm⟩
  · rw [if_neg hf] at h
    cases h

theorem F64.not_special_of_isFinite (x : F64) (h : x.isFinite = true) :
    x.isNaN = false ∧ x.isInf = false := by
  unfold F64.isFinite at h
  unfold F64.isNaN F64.isInf
  simp only [bne_iff_ne, ne_eq] at h
  simp [h]

theorem F64.div_finite (a b : F64) (ha : a.isFinite = true) (hb : b.isFinite = true)
    (hz : b.isZero = false) :
    F64.div a b = F64.roundPack (xor a.sign b.sign) (a.mag * 2 ^ 1074) b.mag := by
  obtain ⟨ha1, ha2⟩ := F64.not_special_of_isFinite a ha
  obtain ⟨hb1, hb2⟩ := F64.not_special_of_isFinite b hb
  unfold F64.div
  simp only [ha1, ha2, hb1, hb2, hz, Bool.or_self, Bool.false_eq_true, if_false]

theorem F64.toRat_ofFields (s : Bool) (x : F64) (hx : x.isFinite = true) :
    (F64.ofFields s x.expField x.frac).toRat
      = some ((if s then -1 else 1) * (x.mag : ℚ) / 2 ^ 1074) := by
  obtain ⟨h1, h2, h3⟩ := F64.ofFields_fields s x.expField x.frac x.expField_lt x.frac_lt
  have hfin : (F64.ofFields s x.expField x.frac).isFinite = true := by
    unfold F64.isFinite at hx ⊢
    rw [h1]; exact hx
  have hmag : (F64.ofFields s x.expField x.frac).mag = x.mag := by
    unfold F64.mag
    rw [h1, h2]
  unfold F64.toRat
  rw [if_pos hfin, h3, hmag]


theorem F64.toRat_of_mag (x : F64) (n j : Nat) (hj : j ≤ 1074) (hf : x.isFinite = true)
    (hs : x.sign = false) (hm : x.mag = n * 2 ^ (1074 - j)) :
    x.toRat = some ((n : ℚ) / 2 ^ j) := by
  unfold F64.toRat
  rw [if_pos hf, hs, hm]
  simp only [Bool.false_eq_true, if_false, one_mul, Nat.cast_mul, Nat.cast_pow, Nat.cast_ofNat]
  congr 1
  have h2 : (2 : ℚ) ^ j ≠ 0 := by positivity
  have h3 : (2 : ℚ) ^ 1074 ≠ 0 := by positivity
  rw [div_eq_div_iff h3 h2, mul_assoc, ← pow_add, Nat.sub_add_cancel hj]

/-- C2 (as stated, refuted): `safeDivide(1, 3)` returns without error the
`float64` with bits `0x3FD5555555555555`, which stands for
`6004799503160661 / 2^54` and not for the mathematical quotient `1 / 3`. -/
theorem safeDivide_one_three_inexact :
    (F64.ofFields false 1023 0).toRat = some 1 ∧
    (F64.ofFields false 1024 (2 ^ 51)).toRat = some 3 ∧
    (safeDivide (F64.ofFields false 1023 0) (F64.ofFields false 1024 (2 ^ 51))).2 = none ∧
    (safeDivide (F64.ofFields false 1023 0) (F64.ofFields false 1024 (2 ^ 51))).1
      = F64.ofFields false 1021 0x5555555555555 ∧
    (F64.ofFields false 1021 0x5555555555555).bits = 0x3FD5555555555555 ∧
    (F64.ofFields false 1021 0x5555555555555).toRat = some (6004799503160661 / 2 ^ 54) ∧
    (safeDivide (F64.ofFields false 1023 0) (F64.ofFields false 1024 (2 ^ 51))).1.toRat
      ≠ some (1 / 3) := by
  have hres : (safeDivide (F64.ofFields false 1023 0) (F64.ofFields false 1024 (2 ^ 51))).1
      = F64.ofFields false 1021 0x5555555555555 := by decide!
  have h1 : (F64.ofFields false 1023 0).toRat = some 1 := by
    have h := F64.toRat_of_mag (F64.ofFields false 1023 0) 1 0 (by decide) (by decide)
      (by decide) (by decide!)
    simpa using h
  have h3 : (F64.ofFields false 1024 (2 ^ 51)).toRat = some 3 := by
    have h := F64.toRat_of_mag (F64.ofFields false 1024 (2 ^ 51)) 3 0 (by decide) (by decide)
      (by decide) (by decide!)
    simpa using h
  have hq : (F64.ofFields false 1021 0x5555555555555).toRat
      = some (6004799503160661 / 2 ^ 54) := by
    have h := F64.toRat_of_mag (F64.ofFields false 1021 0x5555555555555) 6004799503160661 54
      (by decide) (by decide) (by decide) (by decide!)
    simpa using h
  refine ⟨h1, h3, by decide, hres, by decide, hq, ?_⟩
  rw [hres, hq]
  norm_num

theorem abs_signed_mag (s : Bool) (n : Nat) :
    |(if s then -1 else 1) * (n : ℚ) / 2 ^ 1074| = (n : ℚ) / 2 ^ 1074 := by
  have hp : (0 : ℚ) < 2 ^ 1074 := by positivity
  have hn : (0 : ℚ) ≤ (n : ℚ) := Nat.cast_nonneg n
  cases s
  · simp only [Bool.false_eq_true, if_false, one_mul]
    exact abs_of_nonneg (div_nonneg hn hp.le)
  · simp only [if_true, neg_mul, one_mul, neg_div, abs_neg]
    exact abs_of_nonneg (div_nonneg hn hp.le)

theorem nat_cross_mul (na nb nc k : Nat) (h : (na : ℚ) * 2 ^ k = (nc : ℚ) * (nb : ℚ)) :
    na * 2 ^ k = nc * nb := by
  exact_mod_cast h

/-! ## The division rounds to a nearest `float64` -/

theorem F64.dropBits_spec :
    ∀ (fuel q : Nat), q < 2 ^ (53 + fuel) →
      q / 2 ^ F64.dropBits fuel q < 2 ^ 53 ∧
      (F64.dropBits fuel q = 0 ∨ 2 ^ 52 ≤ q / 2 ^ F64.dropBits fuel q) := by
  intro fuel
  induction fuel with
  | zero =>
    intro q hq
    simp only [F64.dropBits, pow_zero, Nat.div_one]
    exact ⟨hq, Or.inl trivial⟩
  | succ fuel ih =>
    intro q hq
    by_cases h : q < 2 ^ 53
    · simp only [F64.dropBits, if_pos h, pow_zero, Nat.div_one]
      exact ⟨h, Or.inl trivial⟩
    · have hhalf : q / 2 < 2 ^ (53 + fuel) := by
        rw [Nat.div_lt_iff_lt_mul (by decide), ← pow_succ]
        exact hq
      obtain ⟨h1, h2⟩ := ih (q / 2) hhalf
      have e : q / 2 ^ (F64.dropBits fuel (q / 2) + 1) = q / 2 / 2 ^ F64.dropBits fuel (q / 2) := by
        rw [pow_succ, Nat.mul_comm, Nat.div_div_eq_div_mul]
      simp only [F64.dropBits, if_neg h]
      rw [e]
      refine ⟨h1, Or.inr ?_⟩
      rcases h2 with h2 | h2
      · rw [h2, pow_zero, Nat.div_one]
        omega
      · exact h2

theorem F64.mag_shape (c : F64) :
    c.mag < 2 ^ 52 ∨ ∃ j M, 2 ^ 52 ≤ M ∧ M < 2 ^ 53 ∧ c.mag = M * 2 ^ j := by
  by_cases h : c.expField = 0
  · left
    rw [F64.mag_subnormal c h]
    exact c.frac_lt
  · right
    have hf := c.frac_lt
    exact ⟨c.expField - 1, 2 ^ 52 + c.frac, by omega, by omega, (F64.mag_normal c h).1⟩

theorem F64.mag_gap (c : F64) (m k : Nat) (hk : k = 0 ∨ 2 ^ 52 ≤ m) (hm : m < 2 ^ 53) :
    c.mag ≤ m * 2 ^ k ∨ (m + 1) * 2 ^ k ≤ c.mag := by
  rcases hk with hk | hk
  · rw [hk, pow_zero, Nat.mul_one, Nat.mul_one]
    omega
  · have hpk : 0 < 2 ^ k := by positivity
    rcases F64.mag_shape c with hc | ⟨j, M, hM1, hM2, hc⟩
    · left
      calc c.mag ≤ m := by omega
        _ ≤ m * 2 ^ k := Nat.le_mul_of_pos_right _ hpk
    · rw [hc]
      rcases Nat.lt_trichotomy j k with hjk | hjk | hjk
      · left
        calc M * 2 ^ j ≤ 2 ^ 53 * 2 ^ j := Nat.mul_le_mul_right _ (by omega)
          _ = 2 ^ 52 * 2 ^ (j + 1) := by rw [pow_succ]; ring
          _ ≤ 2 ^ 52 * 2 ^ k := Nat.mul_le_mul_left _ (Nat.pow_le_pow_right (by decide) hjk)
          _ ≤ m * 2 ^ k := Nat.mul_le_mul_right _ hk
      · rw [hjk]
        rcases Nat.lt_or_ge m M with h | h
        · right; exact Nat.mul_le_mul_right _ h
        · left; exact Nat.mul_le_mul_right _ h
      · right
        calc (m + 1) * 2 ^ k ≤ 2 ^ 53 * 2 ^ k := Nat.mul_le_mul_right _ (by omega)
          _ = 2 ^ 52 * 2 ^ (k + 1) := by rw [pow_succ]; ring
          _ ≤ 2 ^ 52 * 2 ^ j := Nat.mul_le_mul_left _ (Nat.pow_le_pow_right (by decide) hjk)
          _ ≤ M * 2 ^ j := Nat.mul_le_mul_right _ hM1

theorem F64.pack_small (s : Bool) (n : Nat) (h : n < 2 ^ 52) :
    (F64.pack s n).isFinite = true ∧ (F64.pack s n).mag = n ∧ (F64.pack s n).sign = s := by
  obtain ⟨h1, h2, h3⟩ := F64.ofFields_fields s 0 n (by decide) h
  unfold F64.pack
  rw [if_pos h]
  unfold F64.isFinite F64.mag
  rw [h1, h2, h3]
  exact ⟨by decide, by simp, rfl⟩

theorem F64.pack_normal (s : Bool) (M j : Nat) (h1 : 2 ^ 52 ≤ M) (h2 : M < 2 ^ 53)
    (hj : j ≤ 2045) :
    (F64.pack s (M * 2 ^ j)).isFinite = true ∧ (F64.pack s (M * 2 ^ j)).mag = M * 2 ^ j ∧
    (F64.pack s (M * 2 ^ j)).sign = s := by
  have hpj : 0 < 2 ^ j := by positivity
  have hge : ¬ M * 2 ^ j < 2 ^ 52 := by
    have : M ≤ M * 2 ^ j := Nat.le_mul_of_pos_right _ hpj
    omega
  obtain ⟨e1, e2, e3⟩ := F64.ofFields_fields s (j + 1) (M - 2 ^ 52) (by omega) (by omega)
  unfold F64.pack
  rw [if_neg hge, F64.dropBits_shifted M h1 h2 j 3200 (by omega), Nat.mul_div_cancel _ hpj]
  unfold F64.isFinite F64.mag
  rw [e1, e2, e3]
  refine ⟨?_, ?_, rfl⟩
  · simp only [bne_iff_ne, ne_eq]
    omega
  · rw [if_neg (by omega), Nat.add_sub_cancel, Nat.add_sub_cancel' h1]

theorem nearest_of_gap (U W r A B T : ℤ) (hT : T = U + r) (hr0 : 0 ≤ r) (hrW : r < W)
    (hA : (A = U ∧ 2 * r ≤ W) ∨ (A = U + W ∧ W ≤ 2 * r))
    (hB : B ≤ U ∨ U + W ≤ B) : |A - T| ≤ |B - T| := by
  rcases hA with ⟨hA, h⟩ | ⟨hA, h⟩ <;> rcases hB with hB | hB
  · rw [abs_of_nonpos (by omega), abs_of_nonpos (by omega)]; omega
  · rw [abs_of_nonpos (by omega), abs_of_nonneg (by omega)]; omega
  · rw [abs_of_nonneg (by omega), abs_of_nonpos (by omega)]; omega
  · rw [abs_of_nonneg (by omega), abs_of_nonneg (by omega)]; omega

theorem F64.inf_not_finite (s : Bool) : (F64.inf s).isFinite = false := by
  cases s <;> decide

theorem F64.pack_rounded (s : Bool) (m1 k : Nat) (hm1 : m1 ≤ 2 ^ 53)
    (hk : k = 0 ∨ 2 ^ 52 ≤ m1) (hn : m1 * 2 ^ k < 2 ^ 2098) :
    (F64.pack s (m1 * 2 ^ k)).isFinite = true ∧ (F64.pack s (m1 * 2 ^ k)).mag = m1 * 2 ^ k ∧
    (F64.pack s (m1 * 2 ^ k)).sign = s := by
  by_cases hsmall : m1 * 2 ^ k < 2 ^ 52
  · exact F64.pack_small s _ hsmall
  · have hpk : 0 < 2 ^ k := by positivity
    have h52 : 2 ^ 52 ≤ m1 := by
      rcases hk with hk | hk
      · rw [hk, pow_zero, Nat.mul_one] at hsmall
        omega
      · exact hk
    have hbound : ∀ M j : Nat, 2 ^ 52 ≤ M → M * 2 ^ j < 2 ^ 2098 → j ≤ 2045 := by
      intro M j hM hlt
      have h1 : 2 ^ (52 + j) < 2 ^ 2098 := by
        calc 2 ^ (52 + j) = 2 ^ 52 * 2 ^ j := pow_add 2 52 j
          _ ≤ M * 2 ^ j := Nat.mul_le_mul_right _ hM
          _ < 2 ^ 2098 := hlt
      have h2 := (Nat.pow_lt_pow_iff_right (by decide : 1 < 2)).1 h1
      omega
    rcases Nat.lt_or_ge m1 (2 ^ 53) with hlt | hge
    · exact F64.pack_normal s m1 k h52 hlt (hbound m1 k h52 hn)
    · have hm1eq : m1 = 2 ^ 53 := Nat.le_antisymm hm1 hge
      have e : m1 * 2 ^ k = 2 ^ 52 * 2 ^ (k + 1) := by
        rw [hm1eq, pow_succ]; ring
      rw [e] at hn ⊢
      exact F64.pack_normal s (2 ^ 52) (k + 1) (Nat.le_refl _) (by decide)
        (hbound _ _ (Nat.le_refl _) hn)

theorem F64.roundPack_nearest (s : Bool) (num den : Nat) (hden : 0 < den)
    (hq : num / den < 2 ^ (53 + 3200)) (hfin : (F64.roundPack s num den).isFinite = true) :
    (F64.roundPack s num den).sign = s ∧
    ∀ c : F64, |((F64.roundPack s num den).mag : ℤ) * den - num| ≤ |(c.mag : ℤ) * den - num| := by
  obtain ⟨hm53, hk⟩ := F64.dropBits_spec 3200 (num / den) hq
  have hpk : 0 < 2 ^ F64.dropBits 3200 (num / den) := by positivity
  have hunit : 0 < den * 2 ^ F64.dropBits 3200 (num / den) := Nat.mul_pos hden hpk
  have hm : num / (den * 2 ^ F64.dropBits 3200 (num / den))
      = num / den / 2 ^ F64.dropBits 3200 (num / den) := (Nat.div_div_eq_div_mul _ _ _).symm
  have hsplit := Nat.div_add_mod num (den * 2 ^ F64.dropBits 3200 (num / den))
  have hrlt := Nat.mod_lt num hunit
  rw [← hm] at hm53 hk
  unfold F64.roundPack at hfin ⊢
  simp only [] at hfin ⊢
  generalize F64.dropBits 3200 (num / den) = k at *
  generalize hmdef : num / (den * 2 ^ k) = m at *
  generalize hrdef : num % (den * 2 ^ k) = r at *
  generalize hm1def : (if 2 * r < den * 2 ^ k then m
      else if den * 2 ^ k < 2 * r then m + 1
      else if m % 2 = 0 then m else m + 1) = m1 at *
  have hm1 : (m1 = m ∧ 2 * r ≤ den * 2 ^ k) ∨ (m1 = m + 1 ∧ den * 2 ^ k ≤ 2 * r) := by
    rw [← hm1def]
    split_ifs <;> omega
  by_cases hov : 2 ^ 2098 ≤ m1 * 2 ^ k
  · rw [if_pos hov, F64.inf_not_finite] at hfin
    cases hfin
  · rw [if_neg hov]
    have hk1 : k = 0 ∨ 2 ^ 52 ≤ m1 := by
      rcases hk with hk | hk
      · exact Or.inl hk
      · right; rcases hm1 with ⟨h, _⟩ | ⟨h, _⟩ <;> omega
    obtain ⟨_, hmag, hsign⟩ := F64.pack_rounded s m1 k
      (by rcases hm1 with ⟨h, _⟩ | ⟨h, _⟩ <;> omega) hk1 (by omega)
    refine ⟨hsign, fun c => ?_⟩
    rw [hmag]
    have hgap := F64.mag_gap c m k hk hm53
    apply nearest_of_gap ((m : ℤ) * 2 ^ k * den) ((den : ℤ) * 2 ^ k) (r : ℤ)
    · rw [← hsplit]; push_cast; ring
    · exact Int.ofNat_nonneg r
    · exact_mod_cast hrlt
    · rcases hm1 with ⟨h, h2⟩ | ⟨h, h2⟩
      · left
        refine ⟨by rw [h]; push_cast; ring, ?_⟩
        exact_mod_cast h2
      · right
        refine ⟨by rw [h]; push_cast; ring, ?_⟩
        exact_mod_cast h2
    · rcases hgap with h | h
      · left
        have := Nat.mul_le_mul_right den h
        exact_mod_cast this
      · right
        have := Nat.mul_le_mul_right den h
        have e : ((m : ℤ) * 2 ^ k * den) + (den : ℤ) * 2 ^ k = (((m + 1) * 2 ^ k * den : Nat) : ℤ) := by
          push_cast; ring
        rw [e]
        exact_mod_cast this

theorem two_pow_mono {i j : Nat} (h : i ≤ j) : (2 : Nat) ^ i ≤ 2 ^ j :=
  Nat.pow_le_pow_right (by decide) h

theorem F64.mag_lt (x : F64) : x.mag < 2 ^ 2099 := by
  have hf := x.frac_lt
  have he := x.expField_lt
  by_cases h : x.expField = 0
  · rw [F64.mag_subnormal x h]
    exact Nat.lt_of_lt_of_le hf (two_pow_mono (by decide))
  · exact Nat.lt_of_lt_of_le (F64.mag_normal x h).2.2.1 (two_pow_mono (by omega))

theorem abs_sign_factor (s : Bool) : |(if s then -1 else 1 : ℚ)| = 1 := by
  cases s <;> simp

theorem signed_div (sa sb : Bool) (na nb p : ℚ) (hp : p ≠ 0) :
    ((if sa then -1 else 1) * na / p) / ((if sb then -1 else 1) * nb / p)
      = (if xor sa sb then -1 else 1) * (na / nb) := by
  by_cases hnb : nb = 0
  · rw [hnb]; simp
  · cases sa <;> cases sb <;>
      simp only [Bool.xor_false, Bool.xor_true, Bool.not_false, Bool.not_true,
        Bool.false_eq_true, if_false, if_true, one_mul, neg_mul, neg_div, div_neg, neg_neg] <;>
      rw [div_div_div_cancel_right₀ hp]

theorem nearest_rat (σ u : ℚ) (hσ : |σ| = 1) (nr nc na nb k : Nat) (hnb : 0 < nb)
    (hu : |u| = (nc : ℚ) / 2 ^ k)
    (h : |(nr : ℤ) * nb - (na * 2 ^ k : Nat)| ≤ |(nc : ℤ) * nb - (na * 2 ^ k : Nat)|) :
    |σ * nr / 2 ^ k - σ * ((na : ℚ) / nb)| ≤ |u - σ * ((na : ℚ) / nb)| := by
  have hp : (0 : ℚ) < 2 ^ k := by positivity
  have hb : (0 : ℚ) < (nb : ℚ) := by exact_mod_cast hnb
  have hd : (0 : ℚ) < 2 ^ k * nb := mul_pos hp hb
  have key : ∀ n : Nat, |(n : ℚ) / 2 ^ k - (na : ℚ) / nb|
      = |(((n : ℤ) * nb - (na * 2 ^ k : Nat) : ℤ) : ℚ)| / (2 ^ k * nb) := by
    intro n
    have e : (n : ℚ) / 2 ^ k - (na : ℚ) / nb
        = (((n : ℤ) * nb - (na * 2 ^ k : Nat) : ℤ) : ℚ) / (2 ^ k * nb) := by
      push_cast
      field_simp
      ring
    rw [e, abs_div, abs_of_pos hd]
  have hl : |σ * nr / 2 ^ k - σ * ((na : ℚ) / nb)| = |(nr : ℚ) / 2 ^ k - (na : ℚ) / nb| := by
    rw [mul_div_assoc, ← mul_sub, abs_mul, hσ, one_mul]
  have hr : |(nc : ℚ) / 2 ^ k - (na : ℚ) / nb| ≤ |u - σ * ((na : ℚ) / nb)| := by
    have h1 := abs_abs_sub_abs_le u (σ * ((na : ℚ) / nb))
    have h2 : |σ * ((na : ℚ) / nb)| = (na : ℚ) / nb := by
      rw [abs_mul, hσ, one_mul]
      exact abs_of_nonneg (div_nonneg (Nat.cast_nonneg _) hb.le)
    rw [hu, h2] at h1
    exact h1
  rw [hl]
  refine le_trans ?_ hr
  rw [key nr, key nc]
  apply div_le_div_of_nonneg_right _ hd.le
  rw [← Int.cast_abs, ← Int.cast_abs]
  exact_mod_cast h

theorem F64.div_nearest (a b c : F64) (x y rv cv : ℚ)
    (ha : a.toRat = some x) (hb : b.toRat = some y) (hy : y ≠ 0)
    (hr : (F64.div a b).toRat = some rv) (hc : c.toRat = some cv) :
    |rv - x / y| ≤ |cv - x / y| := by
  obtain ⟨hfa, hx⟩ := F64.toRat_some a x ha
  obtain ⟨hfb, hy2⟩ := F64.toRat_some b y hb
  obtain ⟨_, hcv⟩ := F64.toRat_some c cv hc
  obtain ⟨hfr, hrv⟩ := F64.toRat_some _ rv hr
  have hzb : b.isZero = false := by
    by_contra hz
    simp only [Bool.not_eq_false] at hz
    rw [(F64.toRat_eq_zero_iff b).2 hz] at hb
    exact hy (Option.some.inj hb).symm
  have hmb : 0 < b.mag := by
    apply Nat.pos_of_ne_zero
    intro h
    rw [(F64.mag_eq_zero_iff b).1 h] at hzb
    cases hzb
  have hdiv := F64.div_finite a b hfa hfb hzb
  have hq : a.mag * 2 ^ 1074 / b.mag < 2 ^ (53 + 3200) := by
    have h1 : a.mag * 2 ^ 1074 / b.mag ≤ a.mag * 2 ^ 1074 := Nat.div_le_self _ _
    have h2 : a.mag * 2 ^ 1074 < 2 ^ 2099 * 2 ^ 1074 :=
      Nat.mul_lt_mul_of_pos_right a.mag_lt (by positivity)
    have h3 : 2 ^ 2099 * 2 ^ 1074 ≤ 2 ^ (53 + 3200) := by
      rw [← pow_add]
      exact two_pow_mono (by decide)
    omega
  rw [hdiv] at hfr hrv
  obtain ⟨hsign, hnear⟩ := F64.roundPack_nearest (xor a.sign b.sign) _ _ hmb hq hfr
  have hxy : x / y = (if xor a.sign b.sign then -1 else 1) * ((a.mag : ℚ) / b.mag) := by
    rw [hx, hy2]
    exact signed_div _ _ _ _ _ (by positivity)
  rw [hsign] at hrv
  rw [hrv, hxy]
  apply nearest_rat _ cv (abs_sign_factor _) _ c.mag _ _ 1074 hmb
  · rw [hcv]; exact abs_signed_mag _ _
  · exact hnear c

theorem F64.isZero_of_toRat_ne_zero (b : F64) (y : ℚ) (hb : b.toRat = some y) (hy : y ≠ 0) :
    b.isZero = false ∧ 0 < b.mag := by
  have hzb : b.isZero = false := by
    by_contra hz
    simp only [Bool.not_eq_false] at hz
    rw [(F64.toRat_eq_zero_iff b).2 hz] at hb
    exact hy (Option.some.inj hb).symm
  refine ⟨hzb, Nat.pos_of_ne_zero ?_⟩
  intro h
  rw [(F64.mag_eq_zero_iff b).1 h] at hzb
  cases hzb

theorem F64.div_exact (a b c : F64) (x y : ℚ)
    (ha : a.toRat = some x) (hb : b.toRat = some y) (hy : y ≠ 0)
    (hc : c.toRat = some (x / y)) : (F64.div a b).toRat = some (x / y) := by
  obtain ⟨hfa, hx⟩ := F64.toRat_some a x ha
  obtain ⟨hfb, hy2⟩ := F64.toRat_some b y hb
  obtain ⟨hfc, hq⟩ := F64.toRat_some c (x / y) hc
  obtain ⟨hzb, hmb⟩ := F64.isZero_of_toRat_ne_zero b y hb hy
  have hp : (2 : ℚ) ^ 1074 ≠ 0 := by positivity
  have hmbq : (b.mag : ℚ) ≠ 0 := by exact_mod_cast hmb.ne'
  have habs : (a.mag : ℚ) / b.mag = (c.mag : ℚ) / 2 ^ 1074 := by
    have h1 : |x / y| = (c.mag : ℚ) / 2 ^ 1074 := by
      rw [hq]; exact abs_signed_mag _ _
    rw [abs_div, hx, hy2, abs_signed_mag, abs_signed_mag,
      div_div_div_cancel_right₀ hp] at h1
    exact h1
  have hnat : a.mag * 2 ^ 1074 = c.mag * b.mag := by
    have h2 : (a.mag : ℚ) * 2 ^ 1074 = (c.mag : ℚ) * b.mag :=
      (div_eq_div_iff hmbq hp).1 habs
    exact nat_cross_mul _ _ _ _ h2
  rw [F64.div_finite a b hfa hfb hzb, hnat,
    F64.roundPack_exact _ c hfc b.mag hmb, F64.toRat_ofFields _ c hfc]
  refine congrArg some ?_
  rw [hx, hy2, signed_div _ _ _ _ _ hp, habs, mul_div_assoc]

/-- C2 (amended): for every finite `a` and every finite nonzero `b`,
`safeDivide(a, b)` returns with a `nil` error the `float64` quotient `a / b`.
The value returned is the exact mathematical quotient exactly when that
quotient is itself a `float64` value; in general, when it is finite, it is a
`float64` nearest to the mathematical quotient (no `float64` is closer). -/
theorem safeDivide_quotient (a b : F64) (x y : ℚ)
    (ha : a.toRat = some x) (hb : b.toRat = some y) (hy : y ≠ 0) :
    safeDivide a b = (F64.div a b, none) ∧
    ((safeDivide a b).1.toRat = some (x / y) ↔ ∃ c : F64, c.toRat = some (x / y)) ∧
    (∀ rv : ℚ, (safeDivide a b).1.toRat = some rv →
      ∀ (c : F64) (cv : ℚ), c.toRat = some cv → |rv - x / y| ≤ |cv - x / y|) := by
  have hsd : safeDivide a b = (F64.div a b, none) := by
    unfold safeDivide
    rw [F64.eq_zero, (F64.isZero_of_toRat_ne_zero b y hb hy).1]
    rfl
  rw [hsd]
  refine ⟨rfl, ⟨fun h => ⟨_, h⟩, fun ⟨c, hc⟩ => F64.div_exact a b c x y ha hb hy hc⟩, ?_⟩
  intro rv hr c cv hc
  exact F64.div_nearest a b c x y rv cv ha hb hy hr hc

theorem safeDivide_quotient_witness :
    F64.ten.toRat = some 10 ∧
    (F64.ofFields false 1025 0).toRat = some 4 ∧
    (F64.ofFields false 1024 (2 ^ 50)).toRat = some (10 / 4) ∧
    safeDivide F64.ten (F64.ofFields false 1025 0)
      = (F64.div F64.ten (F64.ofFields false 1025 0), none) ∧
    (safeDivide F64.ten (F64.ofFields false 1025 0)).1.toRat = some (10 / 4) :=
  have h10 : F64.ten.toRat = some 10 := by
    simpa using F64.toRat_of_mag F64.ten 10 0 (by decide) (by decide) (by decide) (by decide!)
  have h4 : (F64.ofFields false 1025 0).toRat = some 4 := by
    simpa using F64.toRat_of_mag (F64.ofFields false 1025 0) 4 0 (by decide) (by decide)
      (by decide) (by decide!)
  have hc : (F64.ofFields false 1024 (2 ^ 50)).toRat = some (10 / 4) := by
    have h := F64.toRat_of_mag (F64.ofFields false 1024 (2 ^ 50)) 5 1 (by decide) (by decide)
      (by decide) (by decide!)
    rw [h]
    norm_num
  ⟨h10, h4, hc,
    (safeDivide_quotient F64.ten (F64.ofFields false 1025 0) 10 4 h10 h4 (by norm_num)).1,
    (safeDivide_quotient F64.ten (F64.ofFields false 1025 0) 10 4 h10 h4 (by norm_num)).2.1.2
      ⟨_, hc⟩⟩

/-! ## The remaining helpers -/

/-- C11: `hello` takes no input and returns exactly the string
"Hello, World!" (the value `TestHello` expects). -/
theorem hello_eq : hello = "Hello, World!" ∧ hello.length = 13 :=
  ⟨rfl, by decide⟩

theorem processNumber_line (num : Int) (out : Stdout) :
    processNumber num out = out ++
      ["数字 " ++ fmtInt num ++ ": 2倍=" ++ fmtInt (wrapInt (num * 2)) ++ ", 平方="
        ++ fmtInt (wrapInt (num * num))] := rfl

/-- C13 (as stated, refuted): for the `int` value `2^62` the line written by
`processNumber` reports the double `-2^63` and the square `0`, not `2 * num`
and `num * num`. -/
theorem processNumber_overflow :
    isInt 4611686018427387904 ∧
    processNumber 4611686018427387904 []
      = ["数字 4611686018427387904: 2倍=-9223372036854775808, 平方=0"] ∧
    wrapInt (4611686018427387904 * 2) ≠ 2 * 4611686018427387904 ∧
    wrapInt (4611686018427387904 * 4611686018427387904)
      ≠ 4611686018427387904 * 4611686018427387904 := by
  decide

/-- C13 (amended): for every integer `num` whose double and square are `int`
values, `processNumber(num)` writes the single line
"数字 <num>: 2倍=<2*num>, 平方=<num*num>"; the reported square is not
negative and equals the reported double exactly when `num` is 0 or 2.  The
inputs 0..9 that `main` passes are such integers. -/
theorem processNumber_spec (num : Int) (out : Stdout)
    (hdouble : isInt (num * 2)) (hsquare : isInt (num * num)) :
    processNumber num out = out ++
      ["数字 " ++ fmtInt num ++ ": 2倍=" ++ fmtInt (2 * num) ++ ", 平方="
        ++ fmtInt (num * num)] ∧
    wrapInt (num * 2) = 2 * num ∧ wrapInt (num * num) = num * num ∧
    0 ≤ wrapInt (num * num) ∧
    (wrapInt (num * num) = wrapInt (num * 2) ↔ num = 0 ∨ num = 2) ∧
    (∀ i : Int, 0 ≤ i → i ≤ 9 → isInt (i * 2) ∧ isInt (i * i)) := by
  have h2 : wrapInt (num * 2) = 2 * num := by
    rw [wrapInt_of_isInt hdouble, Int.mul_comm]
  have hsq : wrapInt (num * num) = num * num := wrapInt_of_isInt hsquare
  refine ⟨?_, h2, hsq, ?_, ?_, ?_⟩
  · rw [processNumber_line, h2, hsq]
  · rw [hsq]; exact mul_self_nonneg num
  · rw [hsq, h2]
    constructor
    · intro h
      have h3 : num * (num - 2) = 0 := by rw [mul_sub, h]; ring
      rcases mul_eq_zero.mp h3 with h4 | h4
      · exact Or.inl h4
      · right; omega
    · rintro (h | h) <;> simp [h]
  · intro i h0 h9
    unfold isInt minInt maxInt
    have h1 : 0 ≤ i * i := mul_self_nonneg i
    have h3 : i * i ≤ 9 * 9 := mul_le_mul h9 h9 h0 (by decide)
    omega

theorem processNumber_spec_witness :
    processNumber 7 [] = ["数字 7: 2倍=14, 平方=49"] ∧ 0 ≤ wrapInt (7 * 7) ∧
    (wrapInt (2 * 2) = wrapInt (2 * 2) ↔ (2 : Int) = 0 ∨ (2 : Int) = 2) :=
  ⟨(processNumber_spec 7 [] (by decide) (by decide)).1,
   (processNumber_spec 7 [] (by decide) (by decide)).2.2.2.1,
   (processNumber_spec 2 [] (by decide) (by decide)).2.2.2.2.1⟩

/-- C15 (as stated, refuted): for the sequences `[2^63 - 1]` and `[1]` of `int`
values, `calculateSum` of the concatenation is `-2^63`, while the sum of the
two results is `2^63`. -/
theorem calculateSum_append_overflow :
    isInt 9223372036854775807 ∧ isInt 1 ∧
    calculateSum ([9223372036854775807] ++ [1]) = -9223372036854775808 ∧
    calculateSum [9223372036854775807] + calculateSum [1] = 9223372036854775808 ∧
    calculateSum ([9223372036854775807] ++ [1])
      ≠ calculateSum [9223372036854775807] + calculateSum [1] := by
  decide

/-- C15 (amended): for all integer sequences `xs` and `ys`,
`calculateSum (xs ++ ys)` is the sum of `calculateSum xs` and
`calculateSum ys` in `int` arithmetic (wrapped around), hence their sum
whenever that sum is an `int` value; and `calculateSum` of any permutation of
`xs` equals `calculateSum xs`. -/
theorem calculateSum_append_perm (xs ys zs : List Int) (hperm : xs.Perm zs) :
    calculateSum (xs ++ ys) = wrapInt (calculateSum xs + calculateSum ys) ∧
    calculateSum (xs ++ ys) = add (calculateSum xs) (calculateSum ys) ∧
    (isInt (calculateSum xs + calculateSum ys) →
      calculateSum (xs ++ ys) = calculateSum xs + calculateSum ys) ∧
    calculateSum zs = calculateSum xs := by
  have happ : calculateSum (xs ++ ys) = wrapInt (calculateSum xs + calculateSum ys) := by
    rw [calculateSum_eq_wrapInt, calculateSum_eq_wrapInt, calculateSum_eq_wrapInt,
      List.sum_append]
    unfold wrapInt
    omega
  refine ⟨happ, happ, ?_, ?_⟩
  · intro h
    rw [happ, wrapInt_of_isInt h]
  · rw [calculateSum_eq_wrapInt, calculateSum_eq_wrapInt, hperm.sum_eq]

theorem calculateSum_append_perm_witness :
    calculateSum ([1, 2, 3] ++ [4, 5]) = calculateSum [1, 2, 3] + calculateSum [4, 5] ∧
    calculateSum [3, 1, 2] = calculateSum [1, 2, 3] :=
  ⟨(calculateSum_append_perm [1, 2, 3] [4, 5] [3, 1, 2] (by decide)).2.2.1 (by decide),
   (calculateSum_append_perm [1, 2, 3] [4, 5] [3, 1, 2] (by decide)).2.2.2⟩

/-! ## The loop of `main` -/

theorem loopTrace_invariant (draws : Nat → Int) :
    ∀ (fuel : Nat) (i : Int) (st : LoopState), 0 ≤ i → i ≤ 10 → st.counter = i →
      ∀ p ∈ loopTrace draws fuel i st, p.2.counter = p.1 + 1 ∧ 0 ≤ p.1 ∧ p.1 ≤ 9 := by
  intro fuel
  induction fuel with
  | zero => intro i st _ _ _ p hp; simp [loopTrace] at hp
  | succ fuel ih =>
    intro i st h0 h10 hc p hp
    have hw : wrapInt (i + 1) = i + 1 := by
      unfold wrapInt
      omega
    by_cases hlt : i < 10
    · simp only [loopTrace, if_pos hlt, List.mem_cons] at hp
      rcases hp with hp | hp
      · rw [hp]
        simp only [loopBody_counter, hc, hw, true_and]
        omega
      · exact ih (wrapInt (i + 1)) (loopBody draws i st) (by omega) (by omega)
          (by rw [loopBody_counter, hc]) p hp
    · simp [loopTrace, if_neg hlt] at hp

theorem loopBody_filter_greater (draws : Nat → Int) (i : Int) (st : LoopState) :
    (loopBody draws i st).out.filter isGreaterLine = st.out.filter isGreaterLine ++
      (if i > 5 then
        ["大于5的循环: i=" ++ fmtInt i ++ ", counter=" ++ fmtInt (wrapInt (st.counter + 1))]
       else []) := by
  have hg : ∀ s, isGreaterLine ("大于5的循环: i=" ++ s) = true ∧
      isGreaterLine ("数字 " ++ s) = false ∧ isGreaterLine ("随机值大于50: " ++ s) = false := by
    intro s
    simp [isGreaterLine, List.isPrefixOf]
  rw [loopBody_out]
  by_cases h1 : i > 5 <;> by_cases h2 : draws st.calls > 50 <;>
    simp [h1, h2, List.filter_append, List.filter_cons, String.append_assoc,
      (hg _).1, (hg _).2.1, (hg _).2.2]

/-- C12: in the loop of `main` (entered with `counter = 0`, with fuel for the
eleven tests of the condition) the body runs exactly ten times, for
`i = 0, ..., 9` in this order; at the end of each run of the body
`counter = i + 1`; the loop is left with `counter = 10`; and the lines that
start with "大于5的循环" in the output of `main` are exactly the four lines
for `i = 6, 7, 8, 9`, each with `counter = i + 1`. -/
theorem mainLoop_counter_invariant (fuel : Nat) (draws : Nat → Int) (st : LoopState)
    (hfuel : 11 ≤ fuel) (hcounter : st.counter = 0) :
    (loopTrace draws fuel 0 st).map Prod.fst = [0, 1, 2, 3, 4, 5, 6, 7, 8, 9] ∧
    (∀ p ∈ loopTrace draws fuel 0 st, p.2.counter = p.1 + 1) ∧
    (∃ last, mainLoop draws fuel 0 st = some last ∧ last.counter = 10 ∧
      last.calls = st.calls + 10 ∧ (loopTrace draws fuel 0 st).getLast? = some (9, last)) ∧
    mainLoop draws 10 0 st = none ∧
    (∃ out, main fuel draws = some out ∧
      out.filter isGreaterLine =
        ["大于5的循环: i=6, counter=7", "大于5的循环: i=7, counter=8",
         "大于5的循环: i=8, counter=9", "大于5的循环: i=9, counter=10"]) := by
  refine ⟨?_, ?_, ?_, rfl, ?_⟩
  · obtain ⟨k, rfl⟩ := Nat.exists_eq_add_of_le hfuel
    rw [Nat.add_comm]
    rfl
  · intro p hp
    exact (loopTrace_invariant draws fuel 0 st (by decide) (by decide) hcounter p hp).1
  · refine ⟨tenIterations draws st, mainLoop_eq draws fuel hfuel st, ?_, ?_, ?_⟩
    · simp only [tenIterations, List.foldl_cons, List.foldl_nil, loopBody_counter, hcounter]
      decide
    · simp only [tenIterations, List.foldl_cons, List.foldl_nil, loopBody_calls]
    · obtain ⟨k, rfl⟩ := Nat.exists_eq_add_of_le hfuel
      rw [Nat.add_comm]
      rfl
  · refine ⟨_, main_eq draws fuel hfuel, ?_⟩
    simp only [tenIterations, List.foldl_cons, List.foldl_nil, List.filter_append,
      loopBody_filter_greater, loopBody_counter]
    decide

theorem mainLoop_counter_invariant_witness :
    (loopTrace (fun _ => 0) 11 0 { counter := 0, out := [], calls := 0 }).map Prod.fst
      = [0, 1, 2, 3, 4, 5, 6, 7, 8, 9] ∧
    (∀ p ∈ loopTrace (fun _ => 0) 11 0 { counter := 0, out := [], calls := 0 },
      p.2.counter = p.1 + 1) :=
  ⟨(mainLoop_counter_invariant 11 (fun _ => 0) { counter := 0, out := [], calls := 0 }
      (by decide) rfl).1,
   (mainLoop_counter_invariant 11 (fun _ => 0) { counter := 0, out := [], calls := 0 }
      (by decide) rfl).2.1⟩

theorem loopBody_filter_random (draws : Nat → Int) (i : Int) (st : LoopState) :
    (loopBody draws i st).out.filter isRandomLine = st.out.filter isRandomLine ++
      (if draws st.calls > 50 then ["随机值大于50: " ++ fmtInt (draws st.calls)] else []) := by
  rw [loopBody_out]
  by_cases h1 : i > 5 <;> by_cases h2 : draws st.calls > 50 <;>
    simp [h1, h2, List.filter_append, List.filter_cons, String.append_assoc,
      (isRandomLine_loop _).1, (isRandomLine_loop _).2.1, (isRandomLine_loop _).2.2]

theorem foldl_loopBody_filter_random (draws : Nat → Int) :
    ∀ (is : List Int) (st : LoopState),
      (is.foldl (fun s i => loopBody draws i s) st).out.filter isRandomLine =
        st.out.filter isRandomLine ++
          (((List.range' st.calls is.length).map draws).filter (fun r => decide (r > 50))).map
            (fun r => "随机值大于50: " ++ fmtInt r) := by
  intro is
  induction is with
  | nil => intro st; simp
  | cons i is ih =>
    intro st
    simp only [List.foldl_cons, List.length_cons, List.range'_succ, List.map_cons]
    rw [ih, loopBody_filter_random, loopBody_calls, List.append_assoc]
    by_cases h : draws st.calls > 50
    · simp [h, List.filter_cons]
    · simp [h, List.filter_cons]

/-- C14: the threshold check on the random value is strict.  In every
iteration the line "随机值大于50: <r>" is written exactly when the drawn value
`r` is greater than 50, so a draw of exactly 50 writes nothing; in a run of
`main` the lines of this kind are, in order, those of the draws greater than
50 among the ten draws (for draws in 0..99: the draws in 51..99), so there are
at most 10 of them. -/
theorem main_random_lines (fuel : Nat) (draws : Nat → Int) (hfuel : 11 ≤ fuel) :
    (∀ (i : Int) (st : LoopState),
      (loopBody draws i st).out.filter isRandomLine = st.out.filter isRandomLine ++
        (if draws st.calls > 50 then ["随机值大于50: " ++ fmtInt (draws st.calls)] else [])) ∧
    (∀ (i : Int) (st : LoopState), draws st.calls = 50 →
      (loopBody draws i st).out.filter isRandomLine = st.out.filter isRandomLine) ∧
    (∃ out, main fuel draws = some out ∧
      out.filter isRandomLine =
        (((List.range 10).map draws).filter (fun r => decide (r > 50))).map
          (fun r => "随机值大于50: " ++ fmtInt r) ∧
      (out.filter isRandomLine).length ≤ 10) ∧
    ((∀ k, k < 10 → 0 ≤ draws k ∧ draws k < 100) →
      ((List.range 10).map draws).filter (fun r => decide (r > 50)) =
        ((List.range 10).map draws).filter (fun r => decide (51 ≤ r ∧ r ≤ 99))) ∧
    (main 11 (fun _ => 50)).map (List.filter isRandomLine) = some [] ∧
    (main 11 (fun _ => 51)).map (fun out => (List.filter isRandomLine out).length) = some 10 := by
  have hmain : ∀ out, main fuel draws = some out →
      out.filter isRandomLine =
        (((List.range 10).map draws).filter (fun r => decide (r > 50))).map
          (fun r => "随机值大于50: " ++ fmtInt r) := by
    intro out hout
    rw [main_eq draws fuel hfuel] at hout
    rw [← Option.some.inj hout, List.filter_append]
    unfold tenIterations
    rw [foldl_loopBody_filter_random]
    have htail : List.filter isRandomLine
        ["数组和: 15", "年龄有效: 26", "更新后的人员信息: \x7bName:Alice (Updated) Age:26\x7d",
          "除法错误: 除数不能为零", "程序结束"] = [] := by decide
    have hinit : List.filter isRandomLine
        ["Go Debug Pro 测试程序开始", "开始调试: Hello Debug",
          "Person: \x7bName:Alice Age:25\x7d"] = [] := by decide
    rw [htail, List.append_nil]
    simp only [hinit, List.nil_append, List.length_cons, List.length_nil]
    rw [List.range_eq_range']
  refine ⟨loopBody_filter_random draws, ?_, ⟨_, main_eq draws fuel hfuel, ?_, ?_⟩, ?_,
    by decide, by decide⟩
  · intro i st h
    rw [loopBody_filter_random, h]
    simp
  · exact hmain _ (main_eq draws fuel hfuel)
  · rw [hmain _ (main_eq draws fuel hfuel), List.length_map]
    refine le_trans (List.length_filter_le _ _) ?_
    simp
  · intro hrange
    apply List.filter_congr
    intro r hr
    obtain ⟨k, hk, rfl⟩ := List.mem_map.1 hr
    have := hrange k (List.mem_range.1 hk)
    simp only [decide_eq_decide]
    omega

theorem main_random_lines_witness :
    ∃ out, main 11 (fun k => 48 + k) = some out ∧
      out.filter isRandomLine =
        (((List.range 10).map (fun k : Nat => (48 : Int) + k)).filter
          (fun r => decide (r > 50))).map (fun r => "随机值大于50: " ++ fmtInt r) ∧
      (out.filter isRandomLine).length ≤ 10 :=
  (main_random_lines 11 (fun k => 48 + k) (by decide)).2.2.1

theorem loopBody_filter_other (p : String → Bool)
    (hp : ∀ s, p ("大于5的循环: i=" ++ s) = false ∧ p ("数字 " ++ s) = false ∧
      p ("随机值大于50: " ++ s) = false)
    (draws : Nat → Int) (i : Int) (st : LoopState) :
    (loopBody draws i st).out.filter p = st.out.filter p := by
  rw [loopBody_out]
  by_cases h1 : i > 5 <;> by_cases h2 : draws st.calls > 50 <;>
    simp [h1, h2, List.filter_append, List.filter_cons, String.append_assoc,
      (hp _).1, (hp _).2.1, (hp _).2.2]

theorem tenIterations_filter_other (p : String → Bool)
    (hp : ∀ s, p ("大于5的循环: i=" ++ s) = false ∧ p ("数字 " ++ s) = false ∧
      p ("随机值大于50: " ++ s) = false)
    (draws : Nat → Int) (st : LoopState) :
    (tenIterations draws st).out.filter p = st.out.filter p := by
  unfold tenIterations
  exact foldl_loopBody_invariant draws
    (fun s => s.out.filter p = st.out.filter p)
    (fun i s h => (loopBody_filter_other p hp draws i s).trans h) _ st rfl

/-- C16: in `main` the record with name "Alice" and age 25 is updated exactly
once.  On every run the output has exactly one line that reports the updated
person, with the name "Alice (Updated)" and the age 26, and exactly one line
of the age validation, "年龄有效: 26"; the lines "年龄不能为负数" and "年龄过大"
are never written. -/
theorem main_updates_person_once (fuel : Nat) (draws : Nat → Int) (hfuel : 11 ≤ fuel) :
    (∀ out : Stdout, updatePerson { Name := "Alice", Age := 25 } out
      = ({ Name := "Alice (Updated)", Age := 26 }, out ++ ["年龄有效: 26"])) ∧
    ∃ out, main fuel draws = some out ∧
      out.filter isUpdateLine = ["更新后的人员信息: \x7bName:Alice (Updated) Age:26\x7d"] ∧
      out.filter isAgeLine = ["年龄有效: 26"] ∧
      "年龄不能为负数" ∉ out ∧ "年龄过大" ∉ out := by
  have hage : ∀ s, isAgeLine ("大于5的循环: i=" ++ s) = false ∧
      isAgeLine ("数字 " ++ s) = false ∧ isAgeLine ("随机值大于50: " ++ s) = false := by
    intro s
    simp [isAgeLine, List.isPrefixOf]
  have hupd : ∀ s, isUpdateLine ("大于5的循环: i=" ++ s) = false ∧
      isUpdateLine ("数字 " ++ s) = false ∧ isUpdateLine ("随机值大于50: " ++ s) = false := by
    intro s
    simp [isUpdateLine, List.isPrefixOf]
  have hfa : (((tenIterations draws
          { counter := 0,
            out := ["Go Debug Pro 测试程序开始", "开始调试: Hello Debug",
              "Person: \x7bName:Alice Age:25\x7d"],
            calls := 0 }).out ++
        ["数组和: 15", "年龄有效: 26", "更新后的人员信息: \x7bName:Alice (Updated) Age:26\x7d",
          "除法错误: 除数不能为零", "程序结束"]).filter isAgeLine) = ["年龄有效: 26"] := by
    rw [List.filter_append, tenIterations_filter_other isAgeLine hage]
    decide
  refine ⟨?_, _, main_eq draws fuel hfuel, ?_, hfa, ?_, ?_⟩
  · intro out
    simp only [updatePerson]
    rw [validateAge_append]
    rfl
  · rw [List.filter_append, tenIterations_filter_other isUpdateLine hupd]
    decide
  · intro hmem
    have h2 : "年龄不能为负数" ∈ ["年龄有效: 26"] := by
      rw [← hfa]
      exact List.mem_filter.2 ⟨hmem, by decide⟩
    exact absurd h2 (by decide)
  · intro hmem
    have h2 : "年龄过大" ∈ ["年龄有效: 26"] := by
      rw [← hfa]
      exact List.mem_filter.2 ⟨hmem, by decide⟩
    exact absurd h2 (by decide)

theorem main_updates_person_once_witness :
    ∃ out, main 11 (fun _ => 0) = some out ∧
      out.filter isUpdateLine = ["更新后的人员信息: \x7bName:Alice (Updated) Age:26\x7d"] ∧
      out.filter isAgeLine = ["年龄有效: 26"] ∧
      "年龄不能为负数" ∉ out ∧ "年龄过大" ∉ out :=
  (main_updates_person_once 11 (fun _ => 0) (by decide)).2

end TestProgram
